import Mathlib

/-!
Verification of the segmented wheel sieve in `src/sieve.cc` (zillion-primes).

The C++ source is shallowly embedded below.  Machine integers (`int64_t`,
`size_t`, `ptrdiff_t`) are modelled as `Int` / `Nat`; all quantities that the
program keeps non-negative (offsets, sizes, bit indices) are modelled as `Nat`,
and the signed 64-bit values that cross the output boundary are modelled as
`Int`.  Fixed-size `std::bitset` blocks are modelled as functions
`Nat → Nat → Bool` (block index → bit index → marked).
-/

set_option maxRecDepth 20000

namespace Indexer

/-- `Indexer::kSize`: the wheel modulus, the product of the first six primes. -/
def kSize : Nat := 2 * 3 * 5 * 7 * 11 * 13

/-- `Indexer::kBits`: number of residues mod `kSize` coprime to the base primes. -/
def kBits : Nat := 1 * 2 * 4 * 6 * 10 * 12

/-- `Indexer::kNextPrime = 17`, the seventh prime. -/
def kNextPrime : Nat := 17

/-- The residue test of the `Indexer` constructor loop: `n` is tracked iff it is
divisible by none of 2, 3, 5, 7, 11, 13 (the `else` branch of the loop). -/
def tracked (n : Nat) : Bool :=
  !(n % 2 == 0 || n % 3 == 0 || n % 5 == 0 || n % 7 == 0 || n % 11 == 0 || n % 13 == 0)

/-- The `atIndex` table: the tracked residues in `[0, kSize)` in increasing
order (the constructor loop writes `atIndex[i] = n` for the i-th tracked `n`). -/
def atIndexL : List Nat := (List.range kSize).filter tracked

/-- The value of the constructor's running counter `i` when the loop reaches
`n`: the number of tracked residues below `n`. -/
def rankOf (n : Nat) : Nat := ((List.range n).filter tracked).length

/-- The `indexOf` table: `-1` for untracked residues, the dense bit index (the
counter value) for tracked ones. -/
def indexOf (n : Nat) : Int := if tracked n then (rankOf n : Int) else -1

/-- `kIndexer.atIndex[i]` as a total function (reads outside `[0, kBits)` do
not occur in the program). -/
def atIndex (i : Nat) : Nat := atIndexL.getD i 0

end Indexer

/-- `MinusMod(x, p)` from the source: `p - 1 - (x + p - 1) % p`, where `%` is
C++ truncated-division remainder (`Int.tmod`).  Computes `-x mod p` for the
program's always-non-negative arguments. -/
def MinusMod (x p : Int) : Int := p - 1 - (x + p - 1).tmod p

/-- A sieved range of `size * Indexer::kSize` numbers starting at `offset`
(class `Range`).  `bits j i` is bit `i` of `bitsets_[j]`. -/
structure Range where
  offset : Nat
  size : Nat
  bits : Nat → Nat → Bool

/-- The `Range(offset, size)` constructor: all bits clear, except that when
`offset == 0` the bit of residue 1 in block 0 is set (1 is not a prime). -/
def Range.new (offset size : Nat) : Range :=
  { offset := offset, size := size,
    bits := fun j i => decide (offset = 0 ∧ j = 0 ∧ i = 0) }

/-- `bitsets_[j].set(i)`. -/
def setBit (b : Nat → Nat → Bool) (j i : Nat) : Nat → Nat → Bool :=
  fun j2 i2 => (decide (j2 = j) && decide (i2 = i)) || b j2 i2

/-- One iteration of the `Sieve` loop body at relative position `o`:
look up `indexOf[o % kSize]`; if it is a tracked index, set that bit of block
`o / kSize`. -/
def markStep (b : Nat → Nat → Bool) (o : Nat) : Nat → Nat → Bool :=
  if Indexer.tracked (o % Indexer.kSize) then
    setBit b (o / Indexer.kSize) (Indexer.rankOf (o % Indexer.kSize))
  else b

/-- The relative positions visited by `for (; off < maxR; off += p)`. -/
def hitsL (p off maxR : Nat) : List Nat :=
  (List.range ((maxR - off + p - 1) / p)).map (fun k => off + k * p)

/-- `Range::Sieve(p, offset)` (the two-argument overload; the spec's
`MarkMultiplesFrom`): mark every visited position of the loop. -/
def Range.SieveFrom (r : Range) (p off : Nat) : Range :=
  { r with bits := (hitsL p off (r.size * Indexer.kSize)).foldl markStep r.bits }

/-- `Range::Sieve(p)` (the spec's `MarkMultiples`): start the loop at
`MinusMod(offset_, p)`. -/
def Range.Sieve (r : Range) (p : Nat) : Range :=
  r.SieveFrom p (MinusMod (r.offset : Int) (p : Int)).toNat

/-- `Range::ForPrimes(f)` (the spec's `ForEachSurvivor`) as the list of values
passed to `f`, in call order: for each block `j` and each clear bit `i`,
the value `j * kSize + atIndex[i]` (relative to the range start). -/
def Range.ForPrimes (r : Range) : List Nat :=
  (List.range r.size).flatMap (fun j =>
    ((List.range Indexer.kBits).filter (fun i => !(r.bits j i))).map
      (fun i => j * Indexer.kSize + Indexer.atIndex i))

/-- Proof-layer view of a `Range`: the bit a value `v` (relative to the range
start) is stored at, namely bit `rankOf (v % kSize)` of block `v / kSize`. -/
def Range.markedVal (r : Range) (v : Nat) : Bool :=
  r.bits (v / Indexer.kSize) (Indexer.rankOf (v % Indexer.kSize))

/-- The increasing list of wheel-tracked values below `n`. -/
def trackedUpTo (n : Nat) : List Nat :=
  (List.range n).filter (fun v => Indexer.tracked (v % Indexer.kSize))

/-- Proof-layer view of `ForPrimes`: the tracked values of the range whose bit
is still clear. -/
def Range.survivors (r : Range) : List Nat :=
  (trackedUpTo (r.size * Indexer.kSize)).filter (fun v => !(r.markedVal v))

/-- The byte extraction loop of `PrintLittleEndian`: `n` bytes of `p`, least
significant first (`out[i] = p & 0xff; p >>= 8`, two's complement). -/
def leBytes : Nat → Int → List Nat
  | 0, _ => []
  | n + 1, p => (p % 256).toNat :: leBytes n (p / 256)

/-- `PrintLittleEndian(p)`: the 8 bytes written to stdout for `p`. -/
def PrintLittleEndian (p : Int) : List Nat := leBytes 8 p

/-- Modelled from the spec: the decoder of the round-trip property
("decoding the output stream as consecutive 8-byte little-endian integers").
The source has no decoder; this is the mathematical inverse the spec
describes: read the 8 bytes as a base-256 number, least significant first,
and interpret it as a two's-complement signed 64-bit value. -/
def decodeNat (bs : List Nat) : Nat := bs.foldr (fun b acc => b + 256 * acc) 0

/-- Modelled from the spec: two's-complement reading of `decodeNat`. -/
def decodeLE (bs : List Nat) : Int :=
  if decodeNat bs < 2 ^ 63 then (decodeNat bs : Int) else (decodeNat bs : Int) - 2 ^ 64

/-- Modelled from the spec: decoding an output stream as consecutive 8-byte
little-endian integers (the source has no decoder). -/
def decodeStream : List Nat → List Int
  | b0 :: b1 :: b2 :: b3 :: b4 :: b5 :: b6 :: b7 :: rest =>
      decodeLE [b0, b1, b2, b3, b4, b5, b6, b7] :: decodeStream rest
  | _ => []

/-- The list `{2, 3, 5, 7, 11, 13}` of the base-prime loop in `main`. -/
def basePrimes : List Nat := [2, 3, 5, 7, 11, 13]

/-- An emission loop with the early-exit check: for each `x` in the list, the
value `p = x + offset` is tested against the bound; if `p > maximum` the whole
program exits (`exit(0)`), otherwise `p` is printed.  Returns the printed
values and whether the exit was taken.  This models both the base-prime loop
(`offset = 0`) and the chunk output loop of `main`. -/
def emitScan (maximum : Int) (offset : Nat) : List Nat → List Nat × Bool
  | [] => ([], false)
  | x :: xs =>
    if (((x + offset : Nat) : Int) > maximum) then ([], true)
    else
      ((x + offset) :: (emitScan maximum offset xs).1, (emitScan maximum offset xs).2)

/-- The (block, bit) pairs scanned by `ForPrimes`, in scan order. -/
def positionsOf (size : Nat) : List (Nat × Nat) :=
  (List.range size).flatMap (fun j =>
    (List.range Indexer.kBits).map (fun i => (j, i)))

/-- The value a (block, bit) pair of a `Range` stands for, relative to the
range start: `block * kSize + atIndex[bit]`. -/
def valOf (ji : Nat × Nat) : Nat := ji.1 * Indexer.kSize + Indexer.atIndex ji.2

/-- The self-sieving bootstrap scan of `main`
(`primes.ForPrimes([&](p){ if (p > maximum) exit(0); print p; primes.Sieve(p, kNextPrime * p); })`):
the scan reads each bit of the *current* range state in position order; a clear
bit yields the value `p`, which is bounds-checked, emitted, and whose multiples
from `kNextPrime * p` on are marked in the same range.  Returns the emitted
values, the final range, and whether the exit was taken. -/
def bootLoop (maximum : Int) : List (Nat × Nat) → Range → List Nat × Range × Bool
  | [], r => ([], r, false)
  | ji :: ps, r =>
    if r.bits ji.1 ji.2 then bootLoop maximum ps r
    else
      if (((ji.1 * Indexer.kSize + Indexer.atIndex ji.2 : Nat) : Int) > maximum) then
        ([], r, true)
      else
        ((ji.1 * Indexer.kSize + Indexer.atIndex ji.2) ::
            (bootLoop maximum ps
              (r.SieveFrom (ji.1 * Indexer.kSize + Indexer.atIndex ji.2)
                (Indexer.kNextPrime * (ji.1 * Indexer.kSize + Indexer.atIndex ji.2)))).1,
          (bootLoop maximum ps
            (r.SieveFrom (ji.1 * Indexer.kSize + Indexer.atIndex ji.2)
              (Indexer.kNextPrime * (ji.1 * Indexer.kSize + Indexer.atIndex ji.2)))).2)

/-- `kChunkLength = 50`. -/
def kChunkLength : Nat := 50

/-- `kChunkSize = Indexer::kSize * kChunkLength`. -/
def kChunkSize : Nat := Indexer.kSize * kChunkLength

/-- The mathematical ceiling of the square root, `⌈√n⌉`.  Models the exact
real-arithmetic value of `std::ceil(std::sqrt((long double) n))` in `main`
(the embedding does not model floating-point rounding). -/
def sqrtCeil (n : Nat) : Nat :=
  if Nat.sqrt n * Nat.sqrt n = n then Nat.sqrt n else Nat.sqrt n + 1

/-- `initial_length`: the number of `kSize` blocks needed to cover
`ceil(sqrt(maximum))`, i.e. `ceil(ceil(sqrt(maximum)) / kSize)` (for an
integer divisor, `⌈√m / k⌉ = ⌈⌈√m⌉ / k⌉`). -/
def initial_length (maximum : Int) : Nat :=
  (sqrtCeil maximum.toNat + Indexer.kSize - 1) / Indexer.kSize

/-- `initial_end = initial_length * Indexer::kSize`. -/
def initial_end (maximum : Int) : Nat := initial_length maximum * Indexer.kSize

/-- Reduction of an integer into the value range of `int64_t`: the result is
congruent mod `2^64` and lies in `[-2^63, 2^63)`.  Models the wrap-around a
two's-complement machine produces when a signed 64-bit multiply overflows
(undefined behaviour in the C++ standard; wrap-around on the targets at
hand). -/
def toInt64 (n : Int) : Int := (n + 2 ^ 63) % 2 ^ 64 - 2 ^ 63

/-- The condition of `assert(initial_end * initial_end >= maximum)` in `main`,
with the product `initial_end * initial_end` computed in `int64_t`
arithmetic.  When it is `false` the running program prints a diagnostic to
stderr and aborts; for bounds above `3036993960² = 9223332313076481600` the
square overflows and this really happens. -/
def assertOk (maximum : Int) : Bool :=
  decide (maximum ≤ toInt64 ((initial_end maximum : Int) * (initial_end maximum : Int)))

/-- `chunk_count = (maximum - initial_end + kChunkSize - 1) / kChunkSize`,
evaluated in unsigned (`size_t`) arithmetic; for every `maximum ≥ 1` the
numerator is non-negative (proved below), so `Int.toNat` models it exactly. -/
def chunk_count (maximum : Int) : Nat :=
  (maximum - (initial_end maximum : Int) + (kChunkSize : Int) - 1).toNat / kChunkSize

/-- One chunk body, first half: `Range range(offset, kChunkLength);
primes.ForPrimes([&range](p){ range.Sieve(p); });`. -/
def sieveChunk (pr : Range) (offset : Nat) : Range :=
  pr.ForPrimes.foldl (fun rr p => rr.Sieve p) (Range.new offset kChunkLength)

/-- The chunk loop of `main` over the given chunk indices: sieve each chunk by
the bootstrap primes, then emit its survivors (offset added) with the
early-exit bound check; a taken exit stops all later chunks. -/
def runChunks (maximum : Int) (pr : Range) (E : Nat) : List Nat → List Nat × Bool
  | [] => ([], false)
  | c :: cs =>
    if (emitScan maximum (E + c * kChunkSize)
          ((sieveChunk pr (E + c * kChunkSize)).ForPrimes)).2 then
      ((emitScan maximum (E + c * kChunkSize)
          ((sieveChunk pr (E + c * kChunkSize)).ForPrimes)).1, true)
    else
      ((emitScan maximum (E + c * kChunkSize)
            ((sieveChunk pr (E + c * kChunkSize)).ForPrimes)).1
          ++ (runChunks maximum pr E cs).1,
        (runChunks maximum pr E cs).2)

/-- The complete sequence of values printed by `main` for a parsed bound
`maximum`: the base primes, then — only when the assertion on
`initial_end * initial_end` holds — the bootstrap survivors and the chunk
survivors, each stage cut short by the `exit(0)` bound check.  When the
assertion fails the program aborts right after the base-prime loop, so
nothing beyond the base primes is printed. -/
def mainValues (maximum : Int) : List Nat :=
  (emitScan maximum 0 basePrimes).1 ++
    (if (emitScan maximum 0 basePrimes).2 then [] else
      if assertOk maximum then
        (bootLoop maximum (positionsOf (initial_length maximum))
            (Range.new 0 (initial_length maximum))).1 ++
          (if (bootLoop maximum (positionsOf (initial_length maximum))
                (Range.new 0 (initial_length maximum))).2.2 then [] else
            (runChunks maximum
              (bootLoop maximum (positionsOf (initial_length maximum))
                (Range.new 0 (initial_length maximum))).2.1
              (initial_end maximum)
              (List.range (chunk_count maximum))).1)
      else [])

/-- The byte stream `main` writes to stdout for a parsed bound: each printed
value serialized by `PrintLittleEndian`. -/
def mainBytes (maximum : Int) : List Nat :=
  (mainValues maximum).flatMap (fun p => PrintLittleEndian (p : Int))

/-- First line printed to stderr on a usage error. -/
def usageMsg1 : String := "Emits primes as 64-bit little-endian binary numbers to stdout."

/-- Second line printed to stderr on a usage error. -/
def usageMsg2 : String := "Please specify an upper bound as the only parameter."

/-- The diagnostic an active `assert` prints to stderr before aborting the
process. -/
def assertMsg : String := "Assertion initial_end * initial_end >= maximum failed."

/-- Observable outcome of one program invocation: stdout bytes, stderr lines,
exit status. -/
structure RunResult where
  out : List Nat
  err : List String
  status : Nat

/-- The whole program, at the level of a parsed command line: `args` is the
list of positional arguments after `argv[0]`, already parsed to integers
(`std::stoll`).  `argc != 2` prints the two usage lines to stderr and returns
1.  Otherwise the sieve runs; if the base-prime loop completes (the bound is
at least 13) and the overflowing `assert` on `initial_end * initial_end`
fails, the process prints the assertion diagnostic and aborts (SIGABRT,
observed status 134); on every other path it ends with status 0 (both via
`return 0` and via `exit(0)`). -/
def run (args : List Int) : RunResult :=
  match args with
  | [maximum] =>
    if (emitScan maximum 0 basePrimes).2 = false ∧ assertOk maximum = false then
      { out := mainBytes maximum, err := [assertMsg], status := 134 }
    else
      { out := mainBytes maximum, err := [], status := 0 }
  | _ => { out := [], err := [usageMsg1, usageMsg2], status := 1 }

/-- The increasing list of primes `≤ n`. -/
def primesUpTo (n : Nat) : List Nat :=
  (List.range (n + 1)).filter (fun p => decide (Nat.Prime p))

/-! ## Generic facts about `(List.range N).filter P` -/

theorem filterRange_succ (P : Nat → Bool) (N : Nat) :
    (List.range (N + 1)).filter P
      = (List.range N).filter P ++ (if P N then [N] else []) := by
  rw [List.range_succ, List.filter_append]
  simp [List.filter_cons]

theorem filterRange_mem {P : Nat → Bool} {n N : Nat} :
    n ∈ (List.range N).filter P ↔ n < N ∧ P n = true := by
  simp [List.mem_filter, List.mem_range]

theorem filterRange_sorted (P : Nat → Bool) (N : Nat) :
    ((List.range N).filter P).Pairwise (· < ·) :=
  (List.pairwise_lt_range N).filter P

theorem filterRange_nodup (P : Nat → Bool) (N : Nat) :
    ((List.range N).filter P).Nodup :=
  (List.nodup_range N).filter P

theorem filterRange_getElem? {P : Nat → Bool} {n N : Nat}
    (h : P n = true) (hn : n < N) :
    ((List.range N).filter P)[((List.range n).filter P).length]? = some n := by
  induction N with
  | zero => exact absurd hn (Nat.not_lt_zero n)
  | succ N ih =>
    rcases Nat.lt_succ_iff_lt_or_eq.mp hn with h2 | h2
    · have hx := ih h2
      have hlt : ((List.range n).filter P).length < ((List.range N).filter P).length := by
        obtain ⟨hlt, -⟩ := List.getElem?_eq_some_iff.mp hx
        exact hlt
      rw [filterRange_succ, List.getElem?_append_left hlt]
      exact hx
    · subst h2
      rw [filterRange_succ, if_pos h, List.getElem?_append_right (Nat.le_refl _)]
      simp

theorem filterRange_rank_lt {P : Nat → Bool} {n N : Nat}
    (h : P n = true) (hn : n < N) :
    ((List.range n).filter P).length < ((List.range N).filter P).length := by
  obtain ⟨hlt, -⟩ := List.getElem?_eq_some_iff.mp (filterRange_getElem? h hn)
  exact hlt

theorem filterRange_getD {P : Nat → Bool} {n N : Nat}
    (h : P n = true) (hn : n < N) :
    ((List.range N).filter P).getD ((List.range n).filter P).length 0 = n := by
  rw [List.getD_eq_getElem?_getD, filterRange_getElem? h hn]
  rfl

theorem filterRange_getD_lt {P : Nat → Bool} {N i : Nat}
    (hi : i < ((List.range N).filter P).length) :
    ((List.range N).filter P).getD i 0 < N ∧ P (((List.range N).filter P).getD i 0) = true := by
  have hmem : ((List.range N).filter P).getD i 0 ∈ (List.range N).filter P := by
    rw [List.getD_eq_getElem?_getD, List.getElem?_eq_getElem hi]
    exact List.getElem_mem hi
  exact filterRange_mem.mp hmem

theorem filterRange_rank_getD {P : Nat → Bool} {N i : Nat}
    (hi : i < ((List.range N).filter P).length) :
    ((List.range (((List.range N).filter P).getD i 0)).filter P).length = i := by
  obtain ⟨hlt, hP⟩ := filterRange_getD_lt hi
  have h2 := filterRange_getElem? hP hlt
  have h3 : ((List.range N).filter P)[i]? = some (((List.range N).filter P).getD i 0) := by
    rw [List.getD_eq_getElem?_getD, List.getElem?_eq_getElem hi]
    simp
  obtain ⟨hlt2, -⟩ := List.getElem?_eq_some_iff.mp h2
  exact List.getElem?_inj hlt2 (filterRange_nodup P N) (h2.trans h3.symm)

theorem filterRange_strictMono {P : Nat → Bool} {N i j : Nat}
    (hij : i < j) (hj : j < ((List.range N).filter P).length) :
    ((List.range N).filter P).getD i 0 < ((List.range N).filter P).getD j 0 := by
  have hi : i < ((List.range N).filter P).length := Nat.lt_trans hij hj
  have h := List.pairwise_iff_getElem.mp (filterRange_sorted P N) i j hi hj hij
  rw [List.getD_eq_getElem?_getD, List.getD_eq_getElem?_getD,
    List.getElem?_eq_getElem hi, List.getElem?_eq_getElem hj]
  simpa using h

/-! ## Wheel Indexer invariants -/

theorem tracked_iff {n : Nat} :
    Indexer.tracked n = true ↔
      ¬(2 ∣ n ∨ 3 ∣ n ∨ 5 ∣ n ∨ 7 ∣ n ∨ 11 ∣ n ∨ 13 ∣ n) := by
  simp [Indexer.tracked, Nat.dvd_iff_mod_eq_zero]
  tauto

theorem tracked_false_iff {n : Nat} :
    Indexer.tracked n = false ↔
      (2 ∣ n ∨ 3 ∣ n ∨ 5 ∣ n ∨ 7 ∣ n ∨ 11 ∣ n ∨ 13 ∣ n) := by
  rw [← Bool.not_eq_true, not_iff_comm, tracked_iff]

theorem tracked_mod (v : Nat) :
    Indexer.tracked (v % Indexer.kSize) = Indexer.tracked v := by
  unfold Indexer.tracked
  rw [Nat.mod_mod_of_dvd v (by decide : 2 ∣ Indexer.kSize),
    Nat.mod_mod_of_dvd v (by decide : 3 ∣ Indexer.kSize),
    Nat.mod_mod_of_dvd v (by decide : 5 ∣ Indexer.kSize),
    Nat.mod_mod_of_dvd v (by decide : 7 ∣ Indexer.kSize),
    Nat.mod_mod_of_dvd v (by decide : 11 ∣ Indexer.kSize),
    Nat.mod_mod_of_dvd v (by decide : 13 ∣ Indexer.kSize)]

theorem trackedUpTo_eq (n : Nat) :
    trackedUpTo n = (List.range n).filter Indexer.tracked := by
  unfold trackedUpTo
  exact List.filter_congr (fun v _ => tracked_mod v)

theorem lenChunk0 : ((List.range' 0 5005).filter Indexer.tracked).length = 960 := by decide

theorem lenChunk1 : ((List.range' 5005 5005).filter Indexer.tracked).length = 960 := by decide

theorem lenChunk2 : ((List.range' 10010 5005).filter Indexer.tracked).length = 960 := by decide

theorem lenChunk3 : ((List.range' 15015 5005).filter Indexer.tracked).length = 960 := by decide

theorem lenChunk4 : ((List.range' 20020 5005).filter Indexer.tracked).length = 960 := by decide

theorem lenChunk5 : ((List.range' 25025 5005).filter Indexer.tracked).length = 960 := by decide

theorem atIndexL_length : Indexer.atIndexL.length = Indexer.kBits := by
  have h1 : List.range' 0 30030 = List.range' 0 5005 ++ List.range' 5005 25025 := by
    have := List.range'_append_1 0 5005 25025
    norm_num at this
    exact this.symm
  have h2 : List.range' 5005 25025 = List.range' 5005 5005 ++ List.range' 10010 20020 := by
    have := List.range'_append_1 5005 5005 20020
    norm_num at this
    exact this.symm
  have h3 : List.range' 10010 20020 = List.range' 10010 5005 ++ List.range' 15015 15015 := by
    have := List.range'_append_1 10010 5005 15015
    norm_num at this
    exact this.symm
  have h4 : List.range' 15015 15015 = List.range' 15015 5005 ++ List.range' 20020 10010 := by
    have := List.range'_append_1 15015 5005 10010
    norm_num at this
    exact this.symm
  have h5 : List.range' 20020 10010 = List.range' 20020 5005 ++ List.range' 25025 5005 := by
    have := List.range'_append_1 20020 5005 5005
    norm_num at this
    exact this.symm
  have hk : Indexer.kSize = 30030 := by decide
  unfold Indexer.atIndexL
  rw [hk, List.range_eq_range', h1, h2, h3, h4, h5]
  simp only [List.filter_append, List.length_append]
  rw [lenChunk0, lenChunk1, lenChunk2, lenChunk3, lenChunk4, lenChunk5]
  decide

theorem atIndex_getD (i : Nat) :
    Indexer.atIndex i = ((List.range Indexer.kSize).filter Indexer.tracked).getD i 0 := rfl

theorem atIndex_tracked_lt {i : Nat} (hi : i < Indexer.kBits) :
    Indexer.atIndex i < Indexer.kSize ∧ Indexer.tracked (Indexer.atIndex i) = true := by
  have hi2 : i < ((List.range Indexer.kSize).filter Indexer.tracked).length := by
    have := atIndexL_length
    unfold Indexer.atIndexL at this
    omega
  exact filterRange_getD_lt hi2

theorem rankOf_atIndex {i : Nat} (hi : i < Indexer.kBits) :
    Indexer.rankOf (Indexer.atIndex i) = i := by
  have hi2 : i < ((List.range Indexer.kSize).filter Indexer.tracked).length := by
    have := atIndexL_length
    unfold Indexer.atIndexL at this
    omega
  exact filterRange_rank_getD hi2

theorem atIndex_rankOf {n : Nat} (h : Indexer.tracked n = true) (hn : n < Indexer.kSize) :
    Indexer.atIndex (Indexer.rankOf n) = n :=
  filterRange_getD h hn

theorem rankOf_lt_kBits {n : Nat} (h : Indexer.tracked n = true) (hn : n < Indexer.kSize) :
    Indexer.rankOf n < Indexer.kBits := by
  have := filterRange_rank_lt h hn
  have h2 := atIndexL_length
  unfold Indexer.atIndexL at h2
  unfold Indexer.rankOf
  omega

theorem atIndex_strictMono {i j : Nat} (hij : i < j) (hj : j < Indexer.kBits) :
    Indexer.atIndex i < Indexer.atIndex j := by
  have hj2 : j < ((List.range Indexer.kSize).filter Indexer.tracked).length := by
    have := atIndexL_length
    unfold Indexer.atIndexL at this
    omega
  exact filterRange_strictMono hij hj2

theorem rankOf_one : Indexer.rankOf 1 = 0 := by decide

theorem tracked_one : Indexer.tracked 1 = true := by decide

theorem atIndex_zero : Indexer.atIndex 0 = 1 := by
  have h := atIndex_rankOf tracked_one (by decide : (1 : Nat) < Indexer.kSize)
  rwa [rankOf_one] at h

theorem rankOf_pos {n : Nat} (hn : 2 ≤ n) : 1 ≤ Indexer.rankOf n := by
  have h1 : (1 : Nat) ∈ (List.range n).filter Indexer.tracked :=
    filterRange_mem.mpr ⟨by omega, by decide⟩
  have := List.length_pos.mpr (List.ne_nil_of_mem h1)
  unfold Indexer.rankOf
  omega

theorem tracked_zero : Indexer.tracked 0 = false := by decide

theorem tracked_pos {v : Nat} (h : Indexer.tracked v = true) : 1 ≤ v := by
  rcases Nat.eq_zero_or_pos v with h0 | h1
  · subst h0; simp [tracked_zero] at h
  · exact h1

/-- A prime with a tracked residue is at least 17, and conversely every prime
that is at least 17 is tracked. -/
theorem tracked_prime_iff {p : Nat} (hp : Nat.Prime p) :
    Indexer.tracked p = true ↔ 17 ≤ p := by
  constructor
  · intro h
    by_contra hlt
    have hp17 : p < 17 := by omega
    have : p ∈ [2, 3, 5, 7, 11, 13] := by
      interval_cases p <;> first
        | (exact absurd hp (by decide))
        | simp
    have hdvd : 2 ∣ p ∨ 3 ∣ p ∨ 5 ∣ p ∨ 7 ∣ p ∨ 11 ∣ p ∨ 13 ∣ p := by
      fin_cases this <;> simp
    rw [tracked_iff] at h
    exact h hdvd
  · intro h17
    rw [tracked_iff]
    intro hdvd
    have : p = 2 ∨ p = 3 ∨ p = 5 ∨ p = 7 ∨ p = 11 ∨ p = 13 := by
      rcases hdvd with h | h | h | h | h | h
      all_goals
        rcases (Nat.Prime.eq_one_or_self_of_dvd hp _ h).symm.imp id id with h2 | h2
      · exact Or.inl h2.symm
      · omega
      · exact Or.inr (Or.inl h2.symm)
      · omega
      · exact Or.inr (Or.inr (Or.inl h2.symm))
      · omega
      · exact Or.inr (Or.inr (Or.inr (Or.inl h2.symm)))
      · omega
      · exact Or.inr (Or.inr (Or.inr (Or.inr (Or.inl h2.symm))))
      · omega
      · exact Or.inr (Or.inr (Or.inr (Or.inr (Or.inr h2.symm))))
      · omega
    omega

/-! ## `MinusMod` and the marking loops -/

/-- `MinusMod(x, p) = (-x) mod p` for the non-negative arguments the program
uses (part of claim C5). -/
theorem minusMod_int {x p : Int} (hx : 0 ≤ x) (hp : 0 < p) :
    MinusMod x p = (-x) % p := by
  unfold MinusMod
  rw [Int.tmod_eq_emod (by omega) (by omega)]
  have h1 : (x + p - 1) % p = (x - 1) % p := by
    have he : x + p - 1 = (x - 1) + p * 1 := by ring
    rw [he, Int.add_mul_emod_self_left]
  rw [h1]
  have e1 := Int.emod_add_ediv (x - 1) p
  have e2 := Int.emod_add_ediv (-x) p
  have b1 : 0 ≤ (x - 1) % p := Int.emod_nonneg _ (by omega)
  have b2 : (x - 1) % p < p := Int.emod_lt_of_pos _ hp
  have b3 : 0 ≤ (-x) % p := Int.emod_nonneg _ (by omega)
  have b4 : (-x) % p < p := Int.emod_lt_of_pos _ hp
  have hsum : p * ((x - 1) / p + (-x) / p)
      = -1 - ((x - 1) % p) - ((-x) % p) := by
    rw [Int.mul_add]
    linarith [e1, e2]
  have hs : (x - 1) / p + (-x) / p = -1 := by
    by_contra hne
    rcases lt_or_gt_of_ne hne with hlt | hgt
    · have h2 : (x - 1) / p + (-x) / p ≤ -2 := by omega
      have h3 : p * ((x - 1) / p + (-x) / p) ≤ p * (-2) :=
        Int.mul_le_mul_of_nonneg_left h2 (by omega)
      linarith
    · have h2 : 0 ≤ (x - 1) / p + (-x) / p := by omega
      have h3 : 0 ≤ p * ((x - 1) / p + (-x) / p) := Int.mul_nonneg (by omega) h2
      linarith
  rw [hs] at hsum
  linarith

theorem minusMod_toNat {off p : Nat} (hp : 0 < p) :
    (MinusMod (off : Int) (p : Int)).toNat = p - 1 - (off + p - 1) % p := by
  unfold MinusMod
  have h1 : ((off : Int) + p - 1) = ((off + p - 1 : Nat) : Int) := by omega
  rw [h1, Int.tmod_eq_emod (by omega) (by omega), ← Int.ofNat_emod]
  have h3 : (off + p - 1) % p < p := Nat.mod_lt _ hp
  omega

theorem minusMod_lt {off p : Nat} (hp : 0 < p) :
    (MinusMod (off : Int) (p : Int)).toNat < p := by
  rw [minusMod_toNat hp]
  omega

theorem minusMod_dvd {off p : Nat} (hp : 0 < p) :
    p ∣ (off + (MinusMod (off : Int) (p : Int)).toNat) := by
  rw [minusMod_toNat hp]
  have hq := Nat.div_add_mod (off + p - 1) p
  have h3 : (off + p - 1) % p < p := Nat.mod_lt _ hp
  exact ⟨(off + p - 1) / p, by omega⟩

/-- Positions at or after the `MinusMod` starting point that are congruent to
it mod `p` are exactly those whose absolute value `off + v` is a multiple of
`p`. -/
theorem sieve_start_iff {off p v : Nat} (hp : 0 < p) :
    ((MinusMod (off : Int) (p : Int)).toNat ≤ v ∧
        p ∣ (v - (MinusMod (off : Int) (p : Int)).toNat))
      ↔ p ∣ (off + v) := by
  have h1 : (MinusMod (off : Int) (p : Int)).toNat < p := minusMod_lt hp
  have h2 : p ∣ off + (MinusMod (off : Int) (p : Int)).toNat := minusMod_dvd hp
  constructor
  · rintro ⟨hle, k, hk⟩
    have he : off + v = (off + (MinusMod (off : Int) (p : Int)).toNat) + p * k := by
      omega
    rw [he]
    exact Nat.dvd_add h2 ⟨k, rfl⟩
  · intro hv
    rcases Nat.lt_or_ge v (MinusMod (off : Int) (p : Int)).toNat with hlt | hge
    · exfalso
      have hd : p ∣ (off + (MinusMod (off : Int) (p : Int)).toNat) - (off + v) :=
        Nat.dvd_sub' h2 hv
      have hpos : 0 < (off + (MinusMod (off : Int) (p : Int)).toNat) - (off + v) := by
        omega
      have := Nat.le_of_dvd hpos hd
      omega
    · refine ⟨hge, ?_⟩
      have hd : p ∣ (off + v) - (off + (MinusMod (off : Int) (p : Int)).toNat) :=
        Nat.dvd_sub' hv h2
      have he : (off + v) - (off + (MinusMod (off : Int) (p : Int)).toNat)
          = v - (MinusMod (off : Int) (p : Int)).toNat := by omega
      rwa [he] at hd

theorem lt_ceilDiv {p k A : Nat} (hp : 0 < p) : k < (A + p - 1) / p ↔ k * p < A := by
  rcases Nat.eq_zero_or_pos A with h0 | hA
  · subst h0
    have hz : (0 + p - 1) / p = 0 := Nat.div_eq_of_lt (by omega)
    rw [hz]
    omega
  · rw [Nat.lt_iff_add_one_le, Nat.le_div_iff_mul_le hp, Nat.succ_mul]
    generalize k * p = x
    omega

theorem mem_hitsL {p off maxR o : Nat} (hp : 0 < p) :
    o ∈ hitsL p off maxR ↔ off ≤ o ∧ o < maxR ∧ p ∣ (o - off) := by
  unfold hitsL
  simp only [List.mem_map, List.mem_range]
  constructor
  · rintro ⟨k, hk, rfl⟩
    rw [lt_ceilDiv hp] at hk
    refine ⟨by omega, by omega, ?_⟩
    have he : off + k * p - off = p * k := by
      have := Nat.mul_comm k p
      omega
    rw [he]
    exact ⟨k, rfl⟩
  · rintro ⟨h1, h2, k, hk⟩
    have hc : k * p = p * k := Nat.mul_comm k p
    refine ⟨k, ?_, ?_⟩
    · rw [lt_ceilDiv hp]
      omega
    · omega

theorem foldl_markStep_iff (L : List Nat) (b : Nat → Nat → Bool) (j i : Nat) :
    ((L.foldl markStep b) j i = true) ↔
      b j i = true ∨ ∃ o ∈ L, Indexer.tracked (o % Indexer.kSize) = true ∧
        j = o / Indexer.kSize ∧ i = Indexer.rankOf (o % Indexer.kSize) := by
  induction L generalizing b with
  | nil => simp
  | cons o L ih =>
    rw [List.foldl_cons, ih]
    have hstep : markStep b o j i = true ↔
        b j i = true ∨ (Indexer.tracked (o % Indexer.kSize) = true ∧
          j = o / Indexer.kSize ∧ i = Indexer.rankOf (o % Indexer.kSize)) := by
      unfold markStep setBit
      by_cases h : Indexer.tracked (o % Indexer.kSize) = true
      · rw [if_pos h]
        simp only [Bool.or_eq_true, Bool.and_eq_true, decide_eq_true_eq, h]
        tauto
      · rw [if_neg h]
        simp only [h]
        tauto
    rw [hstep]
    simp only [List.mem_cons]
    constructor
    · rintro ((hb | hP) | ⟨o2, ho2, hQ⟩)
      · exact Or.inl hb
      · exact Or.inr ⟨o, Or.inl rfl, hP⟩
      · exact Or.inr ⟨o2, Or.inr ho2, hQ⟩
    · rintro (hb | ⟨o2, (rfl | ho2), hQ⟩)
      · exact Or.inl (Or.inl hb)
      · exact Or.inl (Or.inr hQ)
      · exact Or.inr ⟨o2, ho2, hQ⟩

theorem kSize_pos : 0 < Indexer.kSize := by decide

theorem SieveFrom_offset (r : Range) (p off : Nat) :
    (r.SieveFrom p off).offset = r.offset := rfl

theorem SieveFrom_size (r : Range) (p off : Nat) :
    (r.SieveFrom p off).size = r.size := rfl

theorem Sieve_offset (r : Range) (p : Nat) : (r.Sieve p).offset = r.offset := rfl

theorem Sieve_size (r : Range) (p : Nat) : (r.Sieve p).size = r.size := rfl

/-- Marking characterization of `Range::Sieve(p, off)` at the bit of a tracked
value `v` of the range: the bit becomes set exactly for the positions
`off, off + p, off + 2p, …` below the range size. -/
theorem SieveFrom_markedVal {r : Range} {p off v : Nat} (hp : 0 < p)
    (hv : Indexer.tracked v = true) (hlt : v < r.size * Indexer.kSize) :
    ((r.SieveFrom p off).markedVal v = true ↔
      r.markedVal v = true ∨ (off ≤ v ∧ p ∣ (v - off))) := by
  unfold Range.SieveFrom Range.markedVal
  rw [foldl_markStep_iff]
  constructor
  · rintro (hb | ⟨o, hoL, hot, hdiv, hrank⟩)
    · exact Or.inl hb
    · have h1 : o % Indexer.kSize < Indexer.kSize := Nat.mod_lt _ kSize_pos
      have h2 : v % Indexer.kSize < Indexer.kSize := Nat.mod_lt _ kSize_pos
      have hvt : Indexer.tracked (v % Indexer.kSize) = true := by
        rw [tracked_mod]; exact hv
      have e1 : Indexer.atIndex (Indexer.rankOf (o % Indexer.kSize)) = o % Indexer.kSize :=
        atIndex_rankOf hot h1
      have e2 : Indexer.atIndex (Indexer.rankOf (v % Indexer.kSize)) = v % Indexer.kSize :=
        atIndex_rankOf hvt h2
      have hres : o % Indexer.kSize = v % Indexer.kSize := by
        rw [← e1, ← e2, hrank]
      have d1 := Nat.div_add_mod o Indexer.kSize
      have d2 := Nat.div_add_mod v Indexer.kSize
      rw [← hdiv] at d1
      have ho : o = v := by omega
      subst ho
      obtain ⟨ha, hb2, hc⟩ := (mem_hitsL hp).mp hoL
      exact Or.inr ⟨ha, hc⟩
  · rintro (hb | ⟨hle, hdvd⟩)
    · exact Or.inl hb
    · refine Or.inr ⟨v, (mem_hitsL hp).mpr ⟨hle, hlt, hdvd⟩, ?_, rfl, rfl⟩
      rw [tracked_mod]; exact hv

/-- Marking characterization of the one-argument `Range::Sieve(p)`: at the bit
of a tracked value `v`, the bit becomes set exactly when the absolute value
`offset + v` is a multiple of `p`. -/
theorem Sieve_markedVal {r : Range} {p v : Nat} (hp : 0 < p)
    (hv : Indexer.tracked v = true) (hlt : v < r.size * Indexer.kSize) :
    ((r.Sieve p).markedVal v = true ↔
      r.markedVal v = true ∨ p ∣ (r.offset + v)) := by
  unfold Range.Sieve
  rw [SieveFrom_markedVal hp hv hlt, sieve_start_iff hp]

/-! ## `ForPrimes` as the list of unmarked tracked values -/

theorem atIndexL_eq :
    Indexer.atIndexL = (List.range Indexer.kSize).filter Indexer.tracked := rfl

theorem atIndexL_map :
    Indexer.atIndexL = (List.range Indexer.kBits).map Indexer.atIndex := by
  apply List.ext_getElem
  · simp [atIndexL_length]
  · intro i h1 h2
    simp only [List.getElem_map, List.getElem_range]
    have h3 : Indexer.atIndex i = Indexer.atIndexL.getD i 0 := rfl
    rw [h3, List.getD_eq_getElem?_getD, List.getElem?_eq_getElem h1, Option.getD_some]

theorem blockVal_div {s x : Nat} (hx : x < Indexer.kSize) :
    (s * Indexer.kSize + x) / Indexer.kSize = s := by
  rw [Nat.mul_comm s Indexer.kSize, Nat.mul_add_div kSize_pos, Nat.div_eq_of_lt hx]
  omega

theorem blockVal_mod {s x : Nat} (hx : x < Indexer.kSize) :
    (s * Indexer.kSize + x) % Indexer.kSize = x := by
  rw [Nat.add_comm, Nat.add_mul_mod_self_right, Nat.mod_eq_of_lt hx]

theorem forPrimes_block (b : Nat → Nat → Bool) (s : Nat) :
    ((List.range Indexer.kSize).map (fun x => s * Indexer.kSize + x)).filter
        (fun v => Indexer.tracked v &&
          !(b (v / Indexer.kSize) (Indexer.rankOf (v % Indexer.kSize))))
      = ((List.range Indexer.kBits).filter (fun i => !(b s i))).map
          (fun i => s * Indexer.kSize + Indexer.atIndex i) := by
  rw [List.filter_map]
  have hcong : ∀ x ∈ List.range Indexer.kSize,
      ((fun v => Indexer.tracked v &&
          !(b (v / Indexer.kSize) (Indexer.rankOf (v % Indexer.kSize)))) ∘
        (fun x => s * Indexer.kSize + x)) x
        = (!(b s (Indexer.rankOf x)) && Indexer.tracked x) := by
    intro x hx
    rw [List.mem_range] at hx
    simp only [Function.comp_apply]
    rw [blockVal_div hx, blockVal_mod hx]
    have h3 : Indexer.tracked (s * Indexer.kSize + x) = Indexer.tracked x := by
      rw [← tracked_mod (s * Indexer.kSize + x), blockVal_mod hx]
    rw [h3, Bool.and_comm]
  rw [List.filter_congr hcong, ← List.filter_filter, ← atIndexL_eq, atIndexL_map,
    List.filter_map]
  have hcong2 : ∀ i ∈ List.range Indexer.kBits,
      ((fun x => !(b s (Indexer.rankOf x))) ∘ Indexer.atIndex) i = !(b s i) := by
    intro i hi
    rw [List.mem_range] at hi
    simp only [Function.comp_apply]
    rw [rankOf_atIndex hi]
  rw [List.filter_congr hcong2, List.map_map]
  rfl

theorem forPrimes_aux (b : Nat → Nat → Bool) (s : Nat) :
    (List.range s).flatMap (fun j =>
        ((List.range Indexer.kBits).filter (fun i => !(b j i))).map
          (fun i => j * Indexer.kSize + Indexer.atIndex i))
      = (List.range (s * Indexer.kSize)).filter
          (fun v => Indexer.tracked v &&
            !(b (v / Indexer.kSize) (Indexer.rankOf (v % Indexer.kSize)))) := by
  induction s with
  | zero => simp
  | succ s ih =>
    rw [List.range_succ, List.flatMap_append, ih, List.flatMap_singleton,
      Nat.succ_mul, List.range_add, List.filter_append, forPrimes_block b s]

/-- `ForPrimes` enumerates exactly the still-clear tracked values of the range,
in increasing order. -/
theorem ForPrimes_eq (r : Range) : r.ForPrimes = r.survivors := by
  unfold Range.ForPrimes Range.survivors
  rw [forPrimes_aux r.bits r.size, trackedUpTo_eq, List.filter_filter]
  exact List.filter_congr (fun v _ => Bool.and_comm _ _)

theorem survivors_sorted (r : Range) : r.survivors.Pairwise (· < ·) := by
  unfold Range.survivors
  rw [trackedUpTo_eq, List.filter_filter]
  exact filterRange_sorted _ _

theorem mem_survivors {r : Range} {v : Nat} :
    v ∈ r.survivors ↔
      v < r.size * Indexer.kSize ∧ Indexer.tracked v = true ∧ r.markedVal v = false := by
  unfold Range.survivors
  rw [trackedUpTo_eq, List.filter_filter, filterRange_mem]
  simp [Bool.and_eq_true]
  tauto

theorem mem_trackedUpTo {n v : Nat} :
    v ∈ trackedUpTo n ↔ v < n ∧ Indexer.tracked v = true := by
  rw [trackedUpTo_eq, filterRange_mem]

theorem trackedUpTo_sorted (n : Nat) : (trackedUpTo n).Pairwise (· < ·) := by
  rw [trackedUpTo_eq]
  exact filterRange_sorted _ _

theorem positionsOf_map_valOf (s : Nat) :
    (positionsOf s).map valOf = trackedUpTo (s * Indexer.kSize) := by
  unfold positionsOf
  rw [List.map_flatMap]
  have h1 : ∀ j, ((List.range Indexer.kBits).map (fun i => (j, i))).map valOf
      = ((List.range Indexer.kBits).filter (fun i => !((fun _ _ => false) j i))).map
          (fun i => j * Indexer.kSize + Indexer.atIndex i) := by
    intro j
    rw [List.map_map]
    simp [valOf]
  calc (List.range s).flatMap (fun j => ((List.range Indexer.kBits).map (fun i => (j, i))).map valOf)
      = (List.range s).flatMap (fun j =>
          ((List.range Indexer.kBits).filter (fun i => !((fun _ _ => false) j i))).map
            (fun i => j * Indexer.kSize + Indexer.atIndex i)) := by
        exact List.flatMap_congr (fun j _ => h1 j)
    _ = (List.range (s * Indexer.kSize)).filter
          (fun v => Indexer.tracked v && !((fun _ _ => false) (v / Indexer.kSize) (Indexer.rankOf (v % Indexer.kSize)))) := forPrimes_aux _ s
    _ = trackedUpTo (s * Indexer.kSize) := by
        rw [trackedUpTo_eq]
        exact List.filter_congr (fun v _ => by simp)

theorem mem_positionsOf {s : Nat} {ji : Nat × Nat} :
    ji ∈ positionsOf s ↔ ji.1 < s ∧ ji.2 < Indexer.kBits := by
  unfold positionsOf
  simp only [List.mem_flatMap, List.mem_map, List.mem_range]
  constructor
  · rintro ⟨j, hj, i, hi, rfl⟩
    exact ⟨hj, hi⟩
  · rintro ⟨h1, h2⟩
    exact ⟨ji.1, h1, ji.2, h2, rfl⟩

attribute [irreducible] Indexer.atIndexL

/-! ## The self-sieving bootstrap scan -/

theorem SieveFrom_mono {r : Range} {p off w : Nat}
    (h : r.markedVal w = true) : (r.SieveFrom p off).markedVal w = true := by
  unfold Range.markedVal Range.SieveFrom at *
  rw [foldl_markStep_iff]
  exact Or.inl h

theorem tracked_valOf {ji : Nat × Nat} (h2 : ji.2 < Indexer.kBits) :
    Indexer.tracked (valOf ji) = true := by
  obtain ⟨hlt, ht⟩ := atIndex_tracked_lt h2
  unfold valOf
  rw [← tracked_mod, blockVal_mod hlt]
  exact ht

theorem valOf_lt {s : Nat} {ji : Nat × Nat} (h1 : ji.1 < s) (h2 : ji.2 < Indexer.kBits) :
    valOf ji < s * Indexer.kSize := by
  obtain ⟨hlt, -⟩ := atIndex_tracked_lt h2
  unfold valOf
  calc ji.1 * Indexer.kSize + Indexer.atIndex ji.2
      < ji.1 * Indexer.kSize + Indexer.kSize := by omega
    _ = (ji.1 + 1) * Indexer.kSize := by ring
    _ ≤ s * Indexer.kSize := Nat.mul_le_mul_right _ h1

theorem markedVal_valOf (r : Range) {ji : Nat × Nat} (h2 : ji.2 < Indexer.kBits) :
    r.markedVal (valOf ji) = r.bits ji.1 ji.2 := by
  obtain ⟨hlt, -⟩ := atIndex_tracked_lt h2
  unfold Range.markedVal valOf
  rw [blockVal_div hlt, blockVal_mod hlt, rankOf_atIndex h2]

theorem dvd_sub_17 {p w : Nat} :
    (17 * p ≤ w ∧ p ∣ (w - 17 * p)) ↔ (17 * p ≤ w ∧ p ∣ w) := by
  constructor
  · rintro ⟨h1, h2⟩
    refine ⟨h1, ?_⟩
    have he : w = (w - 17 * p) + 17 * p := by omega
    rw [he]
    exact Nat.dvd_add h2 (dvd_mul_left p 17)
  · rintro ⟨h1, h2⟩
    exact ⟨h1, Nat.dvd_sub' h2 (dvd_mul_left p 17)⟩

/-- The invariant induction for the bootstrap scan.  Given that along the
remaining positions (whose values are increasing) no prime is marked yet, and
every non-prime value is either already marked or has a prime factor `q` with
`17 q ≤ v` still ahead in the scan, the scan emits exactly the primes `≤
maximum` among the remaining values; it exits iff some remaining prime exceeds
`maximum`; marks only grow, new marks come only from multiples `≥ 17 q` of
remaining primes `q`; and if it does not exit, the final clear bits among the
remaining values are exactly the primes. -/
theorem bootLoop_main (maximum : Int) (ps : List (Nat × Nat)) (r : Range)
    (hvalid : ∀ ji ∈ ps, ji.1 < r.size ∧ ji.2 < Indexer.kBits)
    (hsorted : (ps.map valOf).Pairwise (· < ·))
    (hprime : ∀ v ∈ ps.map valOf, Nat.Prime v → r.markedVal v = false)
    (hcomp : ∀ v ∈ ps.map valOf, ¬ Nat.Prime v →
      r.markedVal v = true ∨
        ∃ q, Nat.Prime q ∧ q ∈ ps.map valOf ∧ q ∣ v ∧ 17 * q ≤ v) :
    (bootLoop maximum ps r).1
        = (ps.map valOf).filter
            (fun v => decide (Nat.Prime v) && decide ((v : Int) ≤ maximum)) ∧
    (bootLoop maximum ps r).2.1.size = r.size ∧
    ((bootLoop maximum ps r).2.2 = true ↔
        ∃ v ∈ ps.map valOf, Nat.Prime v ∧ maximum < (v : Int)) ∧
    (∀ w, Indexer.tracked w = true → w < r.size * Indexer.kSize →
      (bootLoop maximum ps r).2.1.markedVal w = true →
      r.markedVal w = true ∨ ∃ q ∈ ps.map valOf, Nat.Prime q ∧ q ∣ w ∧ 17 * q ≤ w) ∧
    (∀ w, r.markedVal w = true → (bootLoop maximum ps r).2.1.markedVal w = true) ∧
    ((bootLoop maximum ps r).2.2 = false →
      ∀ v ∈ ps.map valOf,
        ((bootLoop maximum ps r).2.1.markedVal v = false ↔ Nat.Prime v)) := by
  induction ps generalizing r with
  | nil =>
    refine ⟨rfl, rfl, by simp [bootLoop], ?_, ?_, ?_⟩
    · intro w _ _ hw
      exact Or.inl hw
    · intro w hw
      exact hw
    · intro _ v hv
      simp at hv
  | cons ji ps ih =>
    obtain ⟨j, i⟩ := ji
    obtain ⟨hj, hi⟩ := hvalid (j, i) (List.mem_cons_self _ _)
    simp only [List.map_cons] at hsorted hprime hcomp
    have hhead_lt : ∀ v ∈ ps.map valOf, valOf (j, i) < v :=
      (List.pairwise_cons.mp hsorted).1
    have htail : (ps.map valOf).Pairwise (· < ·) := (List.pairwise_cons.mp hsorted).2
    have htr : Indexer.tracked (valOf (j, i)) = true := tracked_valOf hi
    have hvlt : valOf (j, i) < r.size * Indexer.kSize := valOf_lt hj hi
    have hbit : r.bits j i = r.markedVal (valOf (j, i)) := (markedVal_valOf r hi).symm
    have hfold : j * Indexer.kSize + Indexer.atIndex i = valOf (j, i) := rfl
    by_cases hm : r.markedVal (valOf (j, i)) = true
    · -- already marked: skipped by the scan; cannot be a prime
      have hnotp : ¬ Nat.Prime (valOf (j, i)) := by
        intro hp
        have := hprime (valOf (j, i)) (List.mem_cons_self _ _) hp
        rw [this] at hm
        exact Bool.false_ne_true hm
      have hunfold : bootLoop maximum ((j, i) :: ps) r = bootLoop maximum ps r := by
        simp only [bootLoop]
        rw [hfold, hbit, if_pos hm]
      obtain ⟨ih1, ih2, ih3, ih4, ih5, ih6⟩ := ih r
        (fun x hx => hvalid x (List.mem_cons_of_mem _ hx)) htail
        (fun v hv hp => hprime v (List.mem_cons_of_mem _ hv) hp)
        (fun v hv hnp => by
          rcases hcomp v (List.mem_cons_of_mem _ hv) hnp with h | ⟨q, hq1, hq2, hq3, hq4⟩
          · exact Or.inl h
          · rcases List.mem_cons.mp hq2 with rfl | hq2
            · exact absurd hq1 hnotp
            · exact Or.inr ⟨q, hq1, hq2, hq3, hq4⟩)
      rw [hunfold]
      refine ⟨?_, ih2, ?_, ?_, ih5, ?_⟩
      · rw [ih1, List.map_cons, List.filter_cons]
        have : (decide (Nat.Prime (valOf (j, i))) &&
            decide ((valOf (j, i) : Int) ≤ maximum)) = false := by
          simp [hnotp]
        rw [this]
        simp
      · rw [ih3]
        constructor
        · rintro ⟨v, hv, h⟩
          exact ⟨v, List.mem_cons_of_mem _ hv, h⟩
        · rintro ⟨v, hv, hp, h⟩
          rcases List.mem_cons.mp hv with rfl | hv
          · exact absurd hp hnotp
          · exact ⟨v, hv, hp, h⟩
      · intro w hw1 hw2 hw3
        rcases ih4 w hw1 hw2 hw3 with h | ⟨q, hq1, hq2, hq3⟩
        · exact Or.inl h
        · exact Or.inr ⟨q, List.mem_cons_of_mem _ hq1, hq2, hq3⟩
      · intro hex v hv
        rcases List.mem_cons.mp hv with rfl | hv
        · constructor
          · intro hfin
            exfalso
            have := ih5 (valOf (j, i)) hm
            rw [hfin] at this
            exact Bool.false_ne_true this
          · intro hp
            exact absurd hp hnotp
        · exact ih6 hex v hv
    · -- clear bit: the scanned value must be a prime
      have hm2 : r.markedVal (valOf (j, i)) = false := by
        rcases Bool.eq_false_or_eq_true (r.markedVal (valOf (j, i))) with h | h
        · exact absurd h hm
        · exact h
      have hp : Nat.Prime (valOf (j, i)) := by
        by_contra hnp
        rcases hcomp (valOf (j, i)) (List.mem_cons_self _ _) hnp with h | ⟨q, hq1, hq2, hq3, hq4⟩
        · exact hm h
        · have hqlt : q < valOf (j, i) := by
            have := Nat.Prime.two_le hq1
            omega
          rcases List.mem_cons.mp hq2 with rfl | hq2
          · omega
          · have := hhead_lt q hq2
            omega
      by_cases hbound : ((valOf (j, i) : Nat) : Int) > maximum
      · -- bound exceeded: exit(0)
        have hunfold : bootLoop maximum ((j, i) :: ps) r = ([], r, true) := by
          simp only [bootLoop]
          rw [hfold, hbit, if_neg hm, if_pos hbound]
        rw [hunfold]
        refine ⟨?_, rfl, ?_, ?_, ?_, ?_⟩
        · rw [List.map_cons, List.filter_cons]
          have hc : (decide (Nat.Prime (valOf (j, i))) &&
              decide ((valOf (j, i) : Int) ≤ maximum)) = false := by
            have hnb : ¬ ((valOf (j, i) : Int) ≤ maximum) := by omega
            simp [hnb]
          rw [hc, if_neg Bool.false_ne_true]
          have hnil : List.filter (fun v => decide (Nat.Prime v) && decide ((v : Int) ≤ maximum))
              (List.map valOf ps) = [] := by
            rw [List.filter_eq_nil_iff]
            intro v hv
            have hlt := hhead_lt v hv
            have hnb : ¬ ((v : Int) ≤ maximum) := by
              have h2 : ((valOf (j, i) : Nat) : Int) < (v : Int) := by exact_mod_cast hlt
              omega
            simp [hnb]
          rw [hnil]
        · simp only [List.map_cons]
          constructor
          · intro _
            exact ⟨valOf (j, i), List.mem_cons_self _ _, hp, by omega⟩
          · intro _
            trivial
        · intro w _ _ hw
          exact Or.inl hw
        · intro w hw
          exact hw
        · intro hfalse
          exact absurd hfalse (by simp)
      · -- emit valOf (j, i), then sieve its multiples from 17 * valOf (j, i)
        have hple : ((valOf (j, i) : Nat) : Int) ≤ maximum := by omega
        have hppos : 0 < valOf (j, i) := Nat.Prime.pos hp
        set r1 := r.SieveFrom (valOf (j, i))
          (Indexer.kNextPrime * (valOf (j, i))) with hr1
        have hk17 : Indexer.kNextPrime * (valOf (j, i)) = 17 * valOf (j, i) := rfl
        have hr1size : r1.size = r.size := rfl
        -- characterize the new marks
        have hchar : ∀ w, Indexer.tracked w = true → w < r.size * Indexer.kSize →
            (r1.markedVal w = true ↔
              r.markedVal w = true ∨ (17 * valOf (j, i) ≤ w ∧ valOf (j, i) ∣ w)) := by
          intro w hw1 hw2
          rw [hr1, hk17, SieveFrom_markedVal hppos hw1 hw2, dvd_sub_17]
        have hunfold : bootLoop maximum ((j, i) :: ps) r
            = (valOf (j, i) :: (bootLoop maximum ps r1).1,
                (bootLoop maximum ps r1).2) := by
          simp only [bootLoop]
          rw [hfold, hbit, if_neg hm, if_neg hbound]
        obtain ⟨ih1, ih2, ih3, ih4, ih5, ih6⟩ := ih r1
          (fun x hx => by
            rw [hr1size]
            exact hvalid x (List.mem_cons_of_mem _ hx))
          htail
          (fun v hv hvp => by
            have hvtr : Indexer.tracked v = true := by
              obtain ⟨x, hx, rfl⟩ := List.mem_map.mp hv
              exact tracked_valOf (hvalid x (List.mem_cons_of_mem _ hx)).2
            have hvlt2 : v < r.size * Indexer.kSize := by
              obtain ⟨x, hx, rfl⟩ := List.mem_map.mp hv
              exact valOf_lt (hvalid x (List.mem_cons_of_mem _ hx)).1
                (hvalid x (List.mem_cons_of_mem _ hx)).2
            have h0 := hprime v (List.mem_cons_of_mem _ hv) hvp
            rcases Bool.eq_false_or_eq_true (r1.markedVal v) with h1 | h1
            swap
            · exact h1
            · exfalso
              rcases (hchar v hvtr hvlt2).mp h1 with h2 | ⟨h2, h3⟩
              · rw [h0] at h2
                exact Bool.false_ne_true h2
              · have := (Nat.prime_dvd_prime_iff_eq hp hvp).mp h3
                have := hhead_lt v hv
                omega)
          (fun v hv hnp => by
            have hvtr : Indexer.tracked v = true := by
              obtain ⟨x, hx, rfl⟩ := List.mem_map.mp hv
              exact tracked_valOf (hvalid x (List.mem_cons_of_mem _ hx)).2
            have hvlt2 : v < r.size * Indexer.kSize := by
              obtain ⟨x, hx, rfl⟩ := List.mem_map.mp hv
              exact valOf_lt (hvalid x (List.mem_cons_of_mem _ hx)).1
                (hvalid x (List.mem_cons_of_mem _ hx)).2
            rcases hcomp v (List.mem_cons_of_mem _ hv) hnp with h | ⟨q, hq1, hq2, hq3, hq4⟩
            · exact Or.inl ((hchar v hvtr hvlt2).mpr (Or.inl h))
            · rcases List.mem_cons.mp hq2 with rfl | hq2
              · exact Or.inl ((hchar v hvtr hvlt2).mpr (Or.inr ⟨hq4, hq3⟩))
              · exact Or.inr ⟨q, hq1, hq2, hq3, hq4⟩)
        rw [hunfold]
        have hr1sz : r1.size * Indexer.kSize = r.size * Indexer.kSize := by
          rw [hr1size]
        refine ⟨?_, by rw [ih2, hr1size], ?_, ?_, ?_, ?_⟩
        · rw [List.map_cons, List.filter_cons]
          have hc : (decide (Nat.Prime (valOf (j, i))) &&
              decide ((valOf (j, i) : Int) ≤ maximum)) = true := by
            simp [hp, hple]
          rw [hc, if_pos rfl, ih1]
        · rw [ih3]
          simp only [List.map_cons]
          constructor
          · rintro ⟨v, hv, h⟩
            exact ⟨v, List.mem_cons_of_mem _ hv, h⟩
          · rintro ⟨v, hv, hvp, h⟩
            rcases List.mem_cons.mp hv with rfl | hv
            · omega
            · exact ⟨v, hv, hvp, h⟩
        · intro w hw1 hw2 hw3
          rcases ih4 w hw1 (by rw [hr1sz]; exact hw2) hw3 with h | ⟨q, hq1, hq2, hq3⟩
          · rcases (hchar w hw1 hw2).mp h with h2 | ⟨h2, h3⟩
            · exact Or.inl h2
            · exact Or.inr ⟨valOf (j, i), List.mem_cons_self _ _, hp, h3, h2⟩
          · exact Or.inr ⟨q, List.mem_cons_of_mem _ hq1, hq2, hq3⟩
        · intro w hw
          exact ih5 w (SieveFrom_mono hw)
        · intro hex v hv
          rcases List.mem_cons.mp hv with rfl | hv
          · constructor
            · intro _
              exact hp
            · intro _
              rcases Bool.eq_false_or_eq_true
                  ((bootLoop maximum ps r1).2.1.markedVal (valOf (j, i))) with h1 | h1
              swap
              · exact h1
              · exfalso
                rcases ih4 (valOf (j, i)) htr (by rw [hr1sz]; exact hvlt) h1
                  with h2 | ⟨q, hq1, hq2, hq3, hq4⟩
                · rcases (hchar (valOf (j, i)) htr hvlt).mp h2 with h3 | ⟨h3, h4⟩
                  · rw [hm2] at h3
                    exact Bool.false_ne_true h3
                  · omega
                · have := (Nat.prime_dvd_prime_iff_eq hq2 hp).mp hq3
                  have := hhead_lt q hq1
                  omega
          · exact ih6 hex v hv

/-! ## The bootstrap segment of `main` -/

theorem new_markedVal_pos {off s v : Nat} (h : 0 < off) :
    (Range.new off s).markedVal v = false := by
  unfold Range.new Range.markedVal
  exact decide_eq_false (by rintro ⟨h0, -, -⟩; omega)

theorem new_markedVal_zero {s v : Nat} (hv : Indexer.tracked v = true) :
    ((Range.new 0 s).markedVal v = true ↔ v = 1) := by
  unfold Range.new Range.markedVal
  simp only [decide_eq_true_eq]
  constructor
  · rintro ⟨-, hdiv, hrank⟩
    have hlt : v < Indexer.kSize := by
      by_contra hge
      push_neg at hge
      have := Nat.div_pos hge kSize_pos
      omega
    rw [Nat.mod_eq_of_lt hlt] at hrank
    have hv1 : 1 ≤ v := tracked_pos hv
    rcases Nat.lt_or_ge v 2 with h2 | h2
    · omega
    · have := rankOf_pos h2
      omega
  · rintro rfl
    refine ⟨trivial, by decide, ?_⟩
    have h1 : 1 % Indexer.kSize = 1 := by decide
    rw [h1, rankOf_one]

theorem new_size (off s : Nat) : (Range.new off s).size = s := rfl

theorem new_offset (off s : Nat) : (Range.new off s).offset = off := rfl

/-- Every tracked non-prime below the bootstrap end is either the forced mark
`1` or has a tracked prime factor `q` with `17 q ≤ v` inside the bootstrap
range. -/
theorem boot_hcomp (s : Nat) :
    ∀ v ∈ trackedUpTo (s * Indexer.kSize), ¬ Nat.Prime v →
      (Range.new 0 s).markedVal v = true ∨
        ∃ q, Nat.Prime q ∧ q ∈ trackedUpTo (s * Indexer.kSize) ∧ q ∣ v ∧ 17 * q ≤ v := by
  intro v hv hnp
  obtain ⟨hvlt, hvt⟩ := mem_trackedUpTo.mp hv
  rcases Nat.lt_or_ge v 2 with h2 | h2
  · have hv1 : v = 1 := by
      have := tracked_pos hvt
      omega
    subst hv1
    exact Or.inl ((new_markedVal_zero hvt).mpr rfl)
  · right
    have hqp : Nat.Prime v.minFac := Nat.minFac_prime (by omega)
    have hqd : v.minFac ∣ v := Nat.minFac_dvd v
    have hqt : Indexer.tracked v.minFac = true := by
      rcases Bool.eq_false_or_eq_true (Indexer.tracked v.minFac) with h | h
      · exact h
      · exfalso
        have hbase := tracked_false_iff.mp h
        have hdvd_v : 2 ∣ v ∨ 3 ∣ v ∨ 5 ∣ v ∨ 7 ∣ v ∨ 11 ∣ v ∨ 13 ∣ v := by
          rcases hbase with hd | hd | hd | hd | hd | hd
          · exact Or.inl (hd.trans hqd)
          · exact Or.inr (Or.inl (hd.trans hqd))
          · exact Or.inr (Or.inr (Or.inl (hd.trans hqd)))
          · exact Or.inr (Or.inr (Or.inr (Or.inl (hd.trans hqd))))
          · exact Or.inr (Or.inr (Or.inr (Or.inr (Or.inl (hd.trans hqd)))))
          · exact Or.inr (Or.inr (Or.inr (Or.inr (Or.inr (hd.trans hqd)))))
        exact (tracked_iff.mp hvt) hdvd_v
    have hq17 : 17 ≤ v.minFac := (tracked_prime_iff hqp).mp hqt
    have hsq : v.minFac * v.minFac ≤ v := by
      have h := Nat.minFac_sq_le_self (by omega : 0 < v) hnp
      have h2 : v.minFac ^ 2 = v.minFac * v.minFac := sq v.minFac
      omega
    have h17q : 17 * v.minFac ≤ v := by
      have h1 : 17 * v.minFac ≤ v.minFac * v.minFac := by
        have := Nat.mul_le_mul_right v.minFac hq17
        omega
      omega
    have hqlt : v.minFac < s * Indexer.kSize := by
      have h1 : v.minFac * 2 ≤ v.minFac * v.minFac := by
        have := Nat.mul_le_mul_left v.minFac (by omega : 2 ≤ v.minFac)
        omega
      omega
    exact ⟨v.minFac, hqp, mem_trackedUpTo.mpr ⟨hqlt, hqt⟩, hqd, h17q⟩

/-- The bootstrap scan of `main`: its output is exactly the tracked primes
`≤ maximum` below `initial_end`, it exits iff some tracked prime in the range
exceeds the bound, and when it completes, the clear bits of the final range
are exactly the primes. -/
theorem boot_out (maximum : Int) (s : Nat) :
    (bootLoop maximum (positionsOf s) (Range.new 0 s)).1
        = (trackedUpTo (s * Indexer.kSize)).filter
            (fun v => decide (Nat.Prime v) && decide ((v : Int) ≤ maximum)) ∧
    (bootLoop maximum (positionsOf s) (Range.new 0 s)).2.1.size = s ∧
    ((bootLoop maximum (positionsOf s) (Range.new 0 s)).2.2 = true ↔
        ∃ v ∈ trackedUpTo (s * Indexer.kSize), Nat.Prime v ∧ maximum < (v : Int)) ∧
    ((bootLoop maximum (positionsOf s) (Range.new 0 s)).2.2 = false →
      ∀ v ∈ trackedUpTo (s * Indexer.kSize),
        ((bootLoop maximum (positionsOf s) (Range.new 0 s)).2.1.markedVal v = false
          ↔ Nat.Prime v)) := by
  have hmap := positionsOf_map_valOf s
  have hvalid : ∀ ji ∈ positionsOf s,
      ji.1 < (Range.new 0 s).size ∧ ji.2 < Indexer.kBits := by
    intro ji hji
    exact mem_positionsOf.mp hji
  have hsorted : ((positionsOf s).map valOf).Pairwise (· < ·) := by
    rw [hmap]
    exact trackedUpTo_sorted _
  have hprime : ∀ v ∈ (positionsOf s).map valOf, Nat.Prime v →
      (Range.new 0 s).markedVal v = false := by
    intro v hv hp
    rw [hmap] at hv
    obtain ⟨-, hvt⟩ := mem_trackedUpTo.mp hv
    rcases Bool.eq_false_or_eq_true ((Range.new 0 s).markedVal v) with h | h
    · exfalso
      have := (new_markedVal_zero hvt).mp h
      subst this
      exact Nat.not_prime_one hp
    · exact h
  have hcomp : ∀ v ∈ (positionsOf s).map valOf, ¬ Nat.Prime v →
      (Range.new 0 s).markedVal v = true ∨
        ∃ q, Nat.Prime q ∧ q ∈ (positionsOf s).map valOf ∧ q ∣ v ∧ 17 * q ≤ v := by
    intro v hv hnp
    rw [hmap] at hv
    rcases boot_hcomp s v hv hnp with h | ⟨q, hq1, hq2, hq3, hq4⟩
    · exact Or.inl h
    · refine Or.inr ⟨q, hq1, ?_, hq3, hq4⟩
      rw [hmap]
      exact hq2
  obtain ⟨h1, h2, h3, h4, h5, h6⟩ :=
    bootLoop_main maximum (positionsOf s) (Range.new 0 s) hvalid hsorted hprime hcomp
  refine ⟨by rw [h1, hmap], h2, by rw [h3, hmap], ?_⟩
  intro hex v hv
  refine h6 hex v ?_
  rw [hmap]
  exact hv

/-- After a completed bootstrap scan, `ForPrimes` on the final bootstrap range
yields exactly the tracked primes below `initial_end`. -/
theorem boot_forPrimes (maximum : Int) (s : Nat)
    (hnoex : (bootLoop maximum (positionsOf s) (Range.new 0 s)).2.2 = false) :
    (bootLoop maximum (positionsOf s) (Range.new 0 s)).2.1.ForPrimes
      = (trackedUpTo (s * Indexer.kSize)).filter (fun v => decide (Nat.Prime v)) := by
  obtain ⟨-, hsz, -, h6⟩ := boot_out maximum s
  rw [ForPrimes_eq]
  unfold Range.survivors
  rw [show (bootLoop maximum (positionsOf s) (Range.new 0 s)).2.1.size * Indexer.kSize
      = s * Indexer.kSize by rw [hsz]]
  apply List.filter_congr
  intro v hv
  have hiff := h6 hnoex v hv
  rcases Bool.eq_false_or_eq_true
      ((bootLoop maximum (positionsOf s) (Range.new 0 s)).2.1.markedVal v) with h | h
  · rw [h]
    simp only [Bool.not_true]
    symm
    rw [decide_eq_false_iff_not]
    intro hp
    rw [hiff.mpr hp] at h
    exact Bool.false_ne_true h
  · rw [h]
    simp only [Bool.not_false]
    symm
    rw [decide_eq_true_eq]
    exact hiff.mp h

/-! ## The emission loops -/

/-- On a strictly increasing list, the emission loop prints `x + offset` for
exactly the prefix satisfying the bound, and takes the exit iff some element
exceeds it. -/
theorem emitScan_out (maximum : Int) (offset : Nat) (xs : List Nat)
    (hsorted : xs.Pairwise (· < ·)) :
    (emitScan maximum offset xs).1
        = (xs.filter (fun x => decide (((x + offset : Nat) : Int) ≤ maximum))).map
            (fun x => x + offset) ∧
    ((emitScan maximum offset xs).2 = true ↔
        ∃ x ∈ xs, maximum < ((x + offset : Nat) : Int)) := by
  induction xs with
  | nil => simp [emitScan]
  | cons x xs ih =>
    obtain ⟨hhead, htail⟩ := List.pairwise_cons.mp hsorted
    obtain ⟨ih1, ih2⟩ := ih htail
    by_cases hb : (((x + offset : Nat) : Int) > maximum)
    · have hunfold : emitScan maximum offset (x :: xs) = ([], true) := by
        simp only [emitScan]
        rw [if_pos hb]
      rw [hunfold]
      constructor
      · have hnil : (x :: xs).filter
            (fun y => decide (((y + offset : Nat) : Int) ≤ maximum)) = [] := by
          rw [List.filter_eq_nil_iff]
          intro a ha
          rcases List.mem_cons.mp ha with rfl | ha
          · simp only [decide_eq_true_eq]
            omega
          · have hlt := hhead a ha
            simp only [decide_eq_true_eq]
            have h2 : ((x : Int) : Int) < (a : Int) := by exact_mod_cast hlt
            omega
        rw [hnil]
        rfl
      · simp only []
        constructor
        · intro _
          exact ⟨x, List.mem_cons_self _ _, hb⟩
        · intro _
          trivial
    · have hle : (((x + offset : Nat) : Int) ≤ maximum) := by omega
      have hunfold : emitScan maximum offset (x :: xs)
          = ((x + offset) :: (emitScan maximum offset xs).1,
              (emitScan maximum offset xs).2) := by
        simp only [emitScan]
        rw [if_neg hb]
      rw [hunfold]
      constructor
      · rw [List.filter_cons, if_pos (by simpa using hle), ih1]
        rfl
      · rw [ih2]
        simp only [List.mem_cons]
        constructor
        · rintro ⟨a, ha, h⟩
          exact ⟨a, Or.inr ha, h⟩
        · rintro ⟨a, rfl | ha, h⟩
          · omega
          · exact ⟨a, ha, h⟩

/-! ## `initial_length`, `initial_end`, `chunk_count` -/

theorem sqrtCeil_le_sq (n : Nat) : n ≤ sqrtCeil n * sqrtCeil n := by
  unfold sqrtCeil
  by_cases h : Nat.sqrt n * Nat.sqrt n = n
  · rw [if_pos h]
    omega
  · rw [if_neg h]
    have h1 := Nat.lt_succ_sqrt n
    rw [Nat.succ_eq_add_one] at h1
    have h2 : (Nat.sqrt n + 1) * (Nat.sqrt n + 1)
        = Nat.sqrt n * Nat.sqrt n + 2 * Nat.sqrt n + 1 := by ring
    omega

theorem sqrtCeil_min {n m : Nat} (h : n ≤ m * m) : sqrtCeil n ≤ m := by
  unfold sqrtCeil
  by_cases hc : Nat.sqrt n * Nat.sqrt n = n
  · rw [if_pos hc]
    by_contra hlt
    push_neg at hlt
    have h2 : m + 1 ≤ Nat.sqrt n := hlt
    have h3 : (m + 1) * (m + 1) ≤ n := Nat.le_sqrt.mp h2
    have h4 : (m + 1) * (m + 1) = m * m + 2 * m + 1 := by ring
    omega
  · rw [if_neg hc]
    by_contra hlt
    push_neg at hlt
    have h2 : m ≤ Nat.sqrt n := by omega
    have h3 : m * m ≤ Nat.sqrt n * Nat.sqrt n := Nat.mul_le_mul h2 h2
    have h4 := Nat.sqrt_le n
    omega

theorem sqrtCeil_le_self {n : Nat} (h : 1 ≤ n) : sqrtCeil n ≤ n := by
  unfold sqrtCeil
  rcases Nat.lt_or_ge n 2 with h2 | h2
  · have hn : n = 1 := by omega
    subst hn
    simp
  · have := Nat.sqrt_lt_self (by omega : 1 < n)
    by_cases hc : Nat.sqrt n * Nat.sqrt n = n
    · rw [if_pos hc]
      omega
    · rw [if_neg hc]
      omega

theorem kChunkSize_eq : kChunkSize = 1501500 := by decide

/-- `initial_end ≥ ⌈√maximum⌉`: the bootstrap segment covers the square root
of the bound. -/
theorem initial_end_ge (maximum : Int) :
    sqrtCeil maximum.toNat ≤ initial_end maximum := by
  unfold initial_end initial_length
  rw [show Indexer.kSize = 30030 from by decide]
  omega

/-- `initial_length` is the least number of blocks whose span reaches
`⌈√maximum⌉`. -/
theorem initial_length_min (maximum : Int) {k : Nat}
    (h : sqrtCeil maximum.toNat ≤ k * Indexer.kSize) :
    initial_length maximum ≤ k := by
  unfold initial_length
  rw [show Indexer.kSize = 30030 from by decide] at h ⊢
  omega

/-- The `assert(initial_end * initial_end >= maximum)` in `main` holds. -/
theorem initial_end_sq (maximum : Int) :
    maximum.toNat ≤ initial_end maximum * initial_end maximum := by
  have h1 := sqrtCeil_le_sq maximum.toNat
  have h2 := initial_end_ge maximum
  have h3 : sqrtCeil maximum.toNat * sqrtCeil maximum.toNat
      ≤ initial_end maximum * initial_end maximum := Nat.mul_le_mul h2 h2
  omega

theorem initial_length_pos (maximum : Int) (h : 1 ≤ maximum) :
    1 ≤ initial_length maximum := by
  have h1 : 1 ≤ sqrtCeil maximum.toNat := by
    unfold sqrtCeil
    have h2 : 1 ≤ maximum.toNat := by omega
    have h3 : 1 ≤ Nat.sqrt maximum.toNat := by
      rw [Nat.le_sqrt]
      omega
    by_cases hc : Nat.sqrt maximum.toNat * Nat.sqrt maximum.toNat = maximum.toNat
    · rw [if_pos hc]
      omega
    · rw [if_neg hc]
      omega
  unfold initial_length
  rw [show Indexer.kSize = 30030 from by decide]
  omega

/-- `initial_end` never overshoots the bound by a whole block. -/
theorem initial_end_le (maximum : Int) (h : 1 ≤ maximum) :
    initial_end maximum ≤ maximum.toNat + Indexer.kSize - 1 := by
  have h0 : 1 ≤ maximum.toNat := by omega
  have h1 : sqrtCeil maximum.toNat ≤ maximum.toNat := sqrtCeil_le_self h0
  unfold initial_end initial_length
  rw [show Indexer.kSize = 30030 from by decide]
  omega

/-- `toInt64` is the identity on the `int64_t` range. -/
theorem toInt64_eq_self {x : Int} (h1 : -(2 ^ 63) ≤ x) (h2 : x < 2 ^ 63) :
    toInt64 x = x := by
  unfold toInt64
  have e63 : (2 : Int) ^ 63 = 9223372036854775808 := by norm_num
  have e64 : (2 : Int) ^ 64 = 18446744073709551616 := by norm_num
  rw [e63] at h1 h2
  rw [e63, e64]
  rw [Int.emod_eq_of_lt (by omega) (by omega)]
  omega

/-- Up to the bound `3036993960² = 9223332313076481600` the `int64_t` square
`initial_end * initial_end` does not overflow, so the assertion of `main`
holds. -/
theorem assertOk_safe (maximum : Int) (h : 1 ≤ maximum)
    (hT : maximum ≤ 9223332313076481600) : assertOk maximum = true := by
  have hsq2 : (3036993960 : Nat) * 3036993960 = 9223332313076481600 := by norm_num
  have hsc : sqrtCeil maximum.toNat ≤ 3036993960 := by
    apply sqrtCeil_min
    omega
  have hE : initial_end maximum ≤ 3036993960 := by
    have h1 : initial_length maximum ≤ 101132 := by
      apply initial_length_min
      rw [show Indexer.kSize = 30030 from by decide]
      omega
    unfold initial_end
    rw [show Indexer.kSize = 30030 from by decide]
    omega
  have hEE : initial_end maximum * initial_end maximum ≤ 9223332313076481600 := by
    have h1 : initial_end maximum * initial_end maximum ≤ 3036993960 * 3036993960 :=
      Nat.mul_le_mul hE hE
    omega
  have hsq := initial_end_sq maximum
  unfold assertOk
  rw [decide_eq_true_eq]
  have hcast : ((initial_end maximum : Nat) : Int) * ((initial_end maximum : Nat) : Int)
      = ((initial_end maximum * initial_end maximum : Nat) : Int) := by
    push_cast
    ring
  have hlt63 : ((initial_end maximum * initial_end maximum : Nat) : Int) < 2 ^ 63 := by
    have h1 : ((initial_end maximum * initial_end maximum : Nat) : Int)
        ≤ 9223332313076481600 := by exact_mod_cast hEE
    have e63 : (2 : Int) ^ 63 = 9223372036854775808 := by norm_num
    omega
  have hge0 : -(2 ^ 63 : Int)
      ≤ ((initial_end maximum * initial_end maximum : Nat) : Int) := by
    have h0 : (0 : Int) ≤ ((initial_end maximum * initial_end maximum : Nat) : Int) :=
      Int.natCast_nonneg _
    have e63 : (2 : Int) ^ 63 = 9223372036854775808 := by norm_num
    omega
  rw [hcast, toInt64_eq_self hge0 hlt63]
  omega

/-- For every bound strictly between `9223332313076481600` and `2^63` the
computed `initial_end` is `3037023990`, whose `int64_t` square wraps to a
negative value: the assertion of `main` fails. -/
theorem assertOk_overflow (maximum : Int) (hT : 9223332313076481600 < maximum)
    (h63 : maximum < 2 ^ 63) : assertOk maximum = false := by
  have hE : initial_end maximum = 3037023990 := by
    have htn1 : 9223332313076481600 < maximum.toNat := by omega
    have htn2 : maximum.toNat ≤ 9223372036854775807 := by
      have : (2 : Int) ^ 63 = 9223372036854775808 := by norm_num
      omega
    have hs_le : sqrtCeil maximum.toNat ≤ 3037000500 := by
      apply sqrtCeil_min
      have h2 : (3037000500 : Nat) * 3037000500 = 9223372037000250000 := by norm_num
      omega
    have hs_ge : 3036993961 ≤ sqrtCeil maximum.toNat := by
      by_contra hlt
      push_neg at hlt
      have h1 := sqrtCeil_le_sq maximum.toNat
      have h2 : sqrtCeil maximum.toNat * sqrtCeil maximum.toNat
          ≤ 3036993960 * 3036993960 := Nat.mul_le_mul (by omega) (by omega)
      have h3 : (3036993960 : Nat) * 3036993960 = 9223332313076481600 := by norm_num
      omega
    unfold initial_end initial_length
    rw [show Indexer.kSize = 30030 from by decide]
    omega
  unfold assertOk
  rw [hE, decide_eq_false_iff_not]
  have hv : toInt64 (((3037023990 : Nat) : Int) * ((3037023990 : Nat) : Int))
      = -9223229357874031516 := by decide
  rw [hv]
  omega

/-- `initial_end` written out in terms of `sqrtCeil`. -/
theorem initial_end_eq_blocks (maximum : Int) :
    initial_end maximum
      = (sqrtCeil maximum.toNat + Indexer.kSize - 1) / Indexer.kSize * Indexer.kSize :=
  rfl

/-- `assertOk` written out. -/
theorem assertOk_eq (maximum : Int) :
    assertOk maximum
      = decide (maximum
          ≤ toInt64 ((initial_end maximum : Int) * (initial_end maximum : Int))) :=
  rfl

/-- At the largest `int64_t` bound, `⌈√(2⁶³−1)⌉ = 3037000500` needs 101133
blocks, so `initial_end = 3037023990`. -/
theorem initial_end_max64 : initial_end 9223372036854775807 = 3037023990 := by
  have hs_le : sqrtCeil (9223372036854775807 : Int).toNat ≤ 3037000500 := by
    apply sqrtCeil_min
    omega
  have hs_ge : 3037000500 ≤ sqrtCeil (9223372036854775807 : Int).toNat := by
    by_contra hlt
    push_neg at hlt
    have h1 := sqrtCeil_le_sq (9223372036854775807 : Int).toNat
    have h2 : sqrtCeil (9223372036854775807 : Int).toNat
          * sqrtCeil (9223372036854775807 : Int).toNat
        ≤ 3037000499 * 3037000499 := Nat.mul_le_mul (by omega) (by omega)
    omega
  rw [initial_end_eq_blocks, show Indexer.kSize = 30030 from by decide]
  omega

/-- The assertion fails at the largest `int64_t` bound. -/
theorem assertOk_max64 : assertOk 9223372036854775807 = false := by
  rw [assertOk_eq, initial_end_max64]
  decide

/-- At the largest `int64_t` bound all six base primes pass the bound check. -/
theorem baseScan_max64 :
    emitScan 9223372036854775807 0 basePrimes = ([2, 3, 5, 7, 11, 13], false) := by
  decide

/-- The base-prime loop reaches its end (no `exit(0)`) whenever `13 ≤ maximum`. -/
theorem baseExit_false (m : Int) (h : 13 ≤ m) :
    (emitScan m 0 basePrimes).2 = false := by
  obtain ⟨-, he2⟩ := emitScan_out m 0 basePrimes (by decide)
  rcases Bool.eq_false_or_eq_true ((emitScan m 0 basePrimes).2) with ht | ht
  · obtain ⟨x, hxmem, hxgt⟩ := he2.mp ht
    exfalso
    fin_cases hxmem <;> (push_cast at hxgt; omega)
  · exact ht

/-- Reduction of `run` on a single-argument command line. -/
theorem run_single (m : Int) :
    run [m] = if (emitScan m 0 basePrimes).2 = false ∧ assertOk m = false then
        { out := mainBytes m, err := [assertMsg], status := 134 }
      else { out := mainBytes m, err := [], status := 0 } := rfl

/-- On the overflow-free range of bounds the run ends with status 0 and an
empty stderr. -/
theorem run_status_safe (m : Int) (h0 : 0 ≤ m) (hT : m ≤ 9223332313076481600) :
    (run [m]).status = 0 ∧ (run [m]).err = [] := by
  rw [run_single]
  rcases Bool.eq_false_or_eq_true ((emitScan m 0 basePrimes).2) with hb | hb
  · rw [if_neg (by rintro ⟨h1, -⟩; rw [hb] at h1; exact Bool.false_ne_true h1.symm)]
    exact ⟨rfl, rfl⟩
  · have h13 : 13 ≤ m := by
      by_contra hlt
      push_neg at hlt
      obtain ⟨-, he2⟩ := emitScan_out m 0 basePrimes (by decide)
      have : (emitScan m 0 basePrimes).2 = true :=
        he2.mpr ⟨13, by decide, by push_cast; omega⟩
      rw [hb] at this
      exact Bool.false_ne_true this
    have hA : assertOk m = true := assertOk_safe m (by omega) hT
    rw [if_neg (by rintro ⟨-, h2⟩; rw [hA] at h2; exact Bool.false_ne_true h2.symm)]
    exact ⟨rfl, rfl⟩

/-- On an overflowing bound (base loop completed, assertion false) the run
aborts: assertion diagnostic on stderr, nonzero status. -/
theorem run_abort (m : Int) (h13 : 13 ≤ m)
    (hA : assertOk m = false) :
    run [m] = ⟨mainBytes m, [assertMsg], 134⟩ := by
  rw [run_single, if_pos ⟨baseExit_false m h13, hA⟩]

/-- When the base loop completes but the assertion fails, the printed values
are exactly the base primes. -/
theorem mainValues_abort (maximum : Int)
    (hb : (emitScan maximum 0 basePrimes).2 = false)
    (hA : assertOk maximum = false) :
    mainValues maximum = (emitScan maximum 0 basePrimes).1 := by
  unfold mainValues
  rw [if_neg (by intro hc; rw [hb] at hc; exact Bool.false_ne_true hc)]
  rw [if_neg (by intro hc; rw [hA] at hc; exact Bool.false_ne_true hc)]
  rw [List.append_nil]

/-- At the largest `int64_t` bound the printed values are exactly the six base
primes: the program aborts at the assertion before the bootstrap. -/
theorem mainValues_max64 : mainValues 9223372036854775807 = [2, 3, 5, 7, 11, 13] := by
  rw [mainValues_abort 9223372036854775807 (by rw [baseScan_max64]) assertOk_max64]
  rw [baseScan_max64]

/-- The run at the largest `int64_t` bound: base primes, diagnostic, abort. -/
theorem run_max64 :
    run [9223372036854775807]
      = ⟨mainBytes 9223372036854775807, [assertMsg], 134⟩ := by
  have h1 : assertOk 9223372036854775807 = false := assertOk_max64
  exact run_abort 9223372036854775807 (by decide) h1

/-- For `maximum ≥ 1` the `size_t` arithmetic computing `chunk_count` does not
wrap: the numerator is non-negative. -/
theorem chunk_count_eq (maximum : Int) (h : 1 ≤ maximum) :
    chunk_count maximum
      = (maximum.toNat + kChunkSize - 1 - initial_end maximum) / kChunkSize := by
  unfold chunk_count
  congr 1
  have h1 := initial_end_le maximum h
  rw [kChunkSize_eq]
  rw [show Indexer.kSize = 30030 from by decide] at h1
  omega

/-- The chunks cover the interval `(initial_end, maximum]`. -/
theorem chunks_cover (maximum : Int) (h : 1 ≤ maximum) :
    maximum.toNat ≤ initial_end maximum + chunk_count maximum * kChunkSize := by
  rw [chunk_count_eq maximum h, kChunkSize_eq]
  omega

/-! ## Chunk sieving -/

theorem foldl_Sieve_offset (Q : List Nat) (r0 : Range) :
    (Q.foldl (fun rr p => rr.Sieve p) r0).offset = r0.offset := by
  induction Q generalizing r0 with
  | nil => rfl
  | cons q Q ih =>
    rw [List.foldl_cons, ih]
    rfl

theorem foldl_Sieve_size (Q : List Nat) (r0 : Range) :
    (Q.foldl (fun rr p => rr.Sieve p) r0).size = r0.size := by
  induction Q generalizing r0 with
  | nil => rfl
  | cons q Q ih =>
    rw [List.foldl_cons, ih]
    rfl

theorem foldl_Sieve_markedVal (Q : List Nat) (r0 : Range) {v : Nat}
    (hv : Indexer.tracked v = true) (hlt : v < r0.size * Indexer.kSize)
    (hpos : ∀ q ∈ Q, 0 < q) :
    ((Q.foldl (fun rr p => rr.Sieve p) r0).markedVal v = true ↔
      r0.markedVal v = true ∨ ∃ q ∈ Q, q ∣ (r0.offset + v)) := by
  induction Q generalizing r0 with
  | nil => simp
  | cons q Q ih =>
    rw [List.foldl_cons]
    have hq : 0 < q := hpos q (List.mem_cons_self _ _)
    have hlt2 : v < (r0.Sieve q).size * Indexer.kSize := by
      rw [Sieve_size]
      exact hlt
    rw [ih (r0.Sieve q) hlt2 (fun x hx => hpos x (List.mem_cons_of_mem _ hx)),
      Sieve_markedVal hq hv hlt, Sieve_offset]
    simp only [List.mem_cons]
    constructor
    · rintro ((hb | hd) | ⟨x, hx, hd⟩)
      · exact Or.inl hb
      · exact Or.inr ⟨q, Or.inl rfl, hd⟩
      · exact Or.inr ⟨x, Or.inr hx, hd⟩
    · rintro (hb | ⟨x, rfl | hx, hd⟩)
      · exact Or.inl (Or.inl hb)
      · exact Or.inl (Or.inr hd)
      · exact Or.inr ⟨x, hx, hd⟩

theorem sieveChunk_offset (pr : Range) (offset : Nat) :
    (sieveChunk pr offset).offset = offset := by
  unfold sieveChunk
  rw [foldl_Sieve_offset]
  rfl

theorem sieveChunk_size (pr : Range) (offset : Nat) :
    (sieveChunk pr offset).size = kChunkLength := by
  unfold sieveChunk
  rw [foldl_Sieve_size]
  rfl

theorem sieveChunk_markedVal (pr : Range) {offset v : Nat} (hoff : 0 < offset)
    (hv : Indexer.tracked v = true) (hlt : v < kChunkLength * Indexer.kSize)
    (hpos : ∀ q ∈ pr.ForPrimes, 0 < q) :
    ((sieveChunk pr offset).markedVal v = true ↔
      ∃ q ∈ pr.ForPrimes, q ∣ (offset + v)) := by
  unfold sieveChunk
  rw [foldl_Sieve_markedVal pr.ForPrimes (Range.new offset kChunkLength) hv
    (by rw [new_size]; exact hlt) hpos, new_offset, new_markedVal_pos hoff]
  simp

/-- Membership in the survivor list of a sieved chunk. -/
theorem sieveChunk_mem (pr : Range) {offset v : Nat} (hoff : 0 < offset)
    (hpos : ∀ q ∈ pr.ForPrimes, 0 < q) :
    (v ∈ (sieveChunk pr offset).ForPrimes ↔
      v < kChunkLength * Indexer.kSize ∧ Indexer.tracked v = true ∧
        ¬ ∃ q ∈ pr.ForPrimes, q ∣ (offset + v)) := by
  rw [ForPrimes_eq, mem_survivors, sieveChunk_size]
  constructor
  · rintro ⟨h1, h2, h3⟩
    refine ⟨h1, h2, ?_⟩
    intro hex
    rw [(sieveChunk_markedVal pr hoff h2 h1 hpos).mpr hex] at h3
    exact Bool.false_ne_true h3.symm
  · rintro ⟨h1, h2, h3⟩
    refine ⟨h1, h2, ?_⟩
    rcases Bool.eq_false_or_eq_true ((sieveChunk pr offset).markedVal v) with hb | hb
    · exact absurd ((sieveChunk_markedVal pr hoff h2 h1 hpos).mp hb) h3
    · exact hb

theorem tracked_minFac {v : Nat} (hvt : Indexer.tracked v = true) (h2 : 2 ≤ v) :
    Indexer.tracked v.minFac = true := by
  have hqd : v.minFac ∣ v := Nat.minFac_dvd v
  rcases Bool.eq_false_or_eq_true (Indexer.tracked v.minFac) with h | h
  · exact h
  · exfalso
    have hbase := tracked_false_iff.mp h
    have hdvd_v : 2 ∣ v ∨ 3 ∣ v ∨ 5 ∣ v ∨ 7 ∣ v ∨ 11 ∣ v ∨ 13 ∣ v := by
      rcases hbase with hd | hd | hd | hd | hd | hd
      · exact Or.inl (hd.trans hqd)
      · exact Or.inr (Or.inl (hd.trans hqd))
      · exact Or.inr (Or.inr (Or.inl (hd.trans hqd)))
      · exact Or.inr (Or.inr (Or.inr (Or.inl (hd.trans hqd))))
      · exact Or.inr (Or.inr (Or.inr (Or.inr (Or.inl (hd.trans hqd)))))
      · exact Or.inr (Or.inr (Or.inr (Or.inr (Or.inr (hd.trans hqd)))))
    exact (tracked_iff.mp hvt) hdvd_v

theorem tracked_align {off v : Nat} (h : off % Indexer.kSize = 0) :
    Indexer.tracked (off + v) = Indexer.tracked v := by
  obtain ⟨k, rfl⟩ := Nat.dvd_of_mod_eq_zero h
  rw [← tracked_mod (Indexer.kSize * k + v), Nat.mul_add_mod, tracked_mod]

theorem kChunk_comm : kChunkLength * Indexer.kSize = kChunkSize := by decide

theorem kSize_dvd_kChunkSize : Indexer.kSize ∣ kChunkSize := by decide

/-- The survivors of a fully sieved chunk that satisfy the bound are exactly
the primes of the chunk interval that satisfy the bound. -/
theorem chunk_filter_eq (maximum : Int) (pr : Range) (E off : Nat)
    (hfp : pr.ForPrimes = (trackedUpTo E).filter (fun v => decide (Nat.Prime v)))
    (hE : Indexer.kSize ≤ E)
    (hEsq : maximum.toNat ≤ E * E)
    (hEoff : E ≤ off)
    (halign : off % Indexer.kSize = 0)
    (halignE : E % Indexer.kSize = 0) :
    ((sieveChunk pr off).ForPrimes.filter
        (fun x => decide (((x + off : Nat) : Int) ≤ maximum))).map (fun x => x + off)
      = (List.range' off kChunkSize).filter
          (fun a => decide (Nat.Prime a) && decide ((a : Int) ≤ maximum)) := by
  have hoff : 0 < off := by
    have := kSize_pos
    omega
  have hpos : ∀ q ∈ pr.ForPrimes, 0 < q := by
    intro q hq
    rw [hfp, List.mem_filter] at hq
    obtain ⟨-, hq2⟩ := hq
    rw [decide_eq_true_eq] at hq2
    exact hq2.pos
  have hmemQ : ∀ q, (q ∈ pr.ForPrimes ↔ q < E ∧ Indexer.tracked q = true ∧ Nat.Prime q) := by
    intro q
    rw [hfp, List.mem_filter, mem_trackedUpTo, decide_eq_true_eq]
    tauto
  -- the right-hand side as a mapped filter over relative positions
  have hRHS : (List.range' off kChunkSize).filter
      (fun a => decide (Nat.Prime a) && decide ((a : Int) ≤ maximum))
      = ((List.range (kChunkLength * Indexer.kSize)).filter
          (fun v => decide (Nat.Prime (off + v)) &&
            decide (((off + v : Nat) : Int) ≤ maximum))).map (fun v => off + v) := by
    rw [show (List.range' off kChunkSize : List Nat)
        = (List.range (kChunkLength * Indexer.kSize)).map (fun v => off + v) by
      rw [List.range_eq_range', List.map_add_range', Nat.add_zero, kChunk_comm]]
    rw [List.filter_map]
    rfl
  rw [hRHS]
  -- the left-hand side as a filter over relative positions
  rw [ForPrimes_eq]
  unfold Range.survivors
  rw [sieveChunk_size, trackedUpTo_eq, List.filter_filter, List.filter_filter]
  rw [show (fun x => x + off) = (fun v => off + v) from funext fun x => Nat.add_comm x off]
  refine congrArg (List.map (fun v => off + v)) (List.filter_congr ?_)
  intro v hv
  beta_reduce
  rw [List.mem_range] at hv
  -- pointwise: survivor-and-bound equals prime-and-bound
  have htr_iff : Indexer.tracked (off + v) = Indexer.tracked v := tracked_align halign
  by_cases hbnd : (((off + v : Nat) : Int) ≤ maximum)
  · have hb1 : decide (((v + off : Nat) : Int) ≤ maximum) = true := by
      rw [decide_eq_true_eq, Nat.add_comm v off]
      exact hbnd
    have hb2 : decide (((off + v : Nat) : Int) ≤ maximum) = true := by
      rw [decide_eq_true_eq]
      exact hbnd
    rw [hb1, hb2]
    simp only [Bool.true_and, Bool.and_true]
    -- survivor ↔ prime, under the bound
    have hveq : off + v ≤ maximum.toNat := by omega
    rcases Bool.eq_false_or_eq_true (Indexer.tracked v) with htv | htv
    · -- tracked: survivor iff prime
      rw [htv]
      simp only [Bool.and_true]
      have hvlt : v < kChunkLength * Indexer.kSize := hv
      rcases Bool.eq_false_or_eq_true ((sieveChunk pr off).markedVal v) with hm | hm
      · -- marked: show it is not prime
        rw [hm]
        simp only [Bool.not_true]
        symm
        rw [decide_eq_false_iff_not]
        intro hp
        obtain ⟨q, hqmem, hqdvd⟩ := (sieveChunk_markedVal pr hoff htv hvlt hpos).mp hm
        obtain ⟨hqE, hqt, hqp⟩ := (hmemQ q).mp hqmem
        rcases (Nat.Prime.eq_one_or_self_of_dvd hp q hqdvd).symm.imp id id with hq1 | hq1
        · omega
        · have h2 := hqp.two_le
          omega
      · -- survivor: show it is prime
        rw [hm]
        simp only [Bool.not_false]
        symm
        rw [decide_eq_true_eq]
        by_contra hnp
        have hk30 : Indexer.kSize = 30030 := by decide
        have ha2 : 2 ≤ off + v := by omega
        have hq := Nat.minFac_prime (show off + v ≠ 1 by omega)
        have hqd := Nat.minFac_dvd (off + v)
        have hqt : Indexer.tracked (off + v).minFac = true := by
          apply tracked_minFac _ ha2
          rw [htr_iff]
          exact htv
        have hq17 : 17 ≤ (off + v).minFac := (tracked_prime_iff hq).mp hqt
        have hsq : (off + v).minFac * (off + v).minFac ≤ off + v := by
          have h := Nat.minFac_sq_le_self (by omega : 0 < off + v) hnp
          have h2 : (off + v).minFac ^ 2 = (off + v).minFac * (off + v).minFac :=
            sq (off + v).minFac
          omega
        have hqleE : (off + v).minFac ≤ E := by
          by_contra hgt
          push_neg at hgt
          have : E * E < (off + v).minFac * (off + v).minFac :=
            Nat.mul_lt_mul_of_lt_of_le hgt (by omega) (by omega)
          omega
        have hqneE : (off + v).minFac ≠ E := by
          intro he
          have hEtr : Indexer.tracked E = false := by
            rw [← tracked_mod E, halignE]
            exact tracked_zero
          rw [he] at hqt
          rw [hqt] at hEtr
          exact Bool.false_ne_true hEtr.symm
        have hmem : (off + v).minFac ∈ pr.ForPrimes := by
          rw [hmemQ]
          exact ⟨by omega, hqt, hq⟩
        have : (sieveChunk pr off).markedVal v = true :=
          (sieveChunk_markedVal pr hoff htv hvlt hpos).mpr ⟨(off + v).minFac, hmem, hqd⟩
        rw [hm] at this
        exact Bool.false_ne_true this
    · -- untracked: both sides false
      rw [htv]
      simp only [Bool.and_false]
      symm
      rw [decide_eq_false_iff_not]
      intro hp
      have h17 : 17 ≤ off + v := by
        have hk30 : Indexer.kSize = 30030 := by decide
        omega
      have : Indexer.tracked (off + v) = true := (tracked_prime_iff hp).mpr h17
      rw [htr_iff, htv] at this
      exact Bool.false_ne_true this
  · have hb1 : decide (((v + off : Nat) : Int) ≤ maximum) = false := by
      rw [decide_eq_false_iff_not]
      rw [Nat.add_comm v off]
      exact hbnd
    have hb2 : decide (((off + v : Nat) : Int) ≤ maximum) = false := by
      rw [decide_eq_false_iff_not]
      exact hbnd
    rw [hb1, hb2]
    simp

theorem sieveChunk_forPrimes_sorted (pr : Range) (off : Nat) :
    (sieveChunk pr off).ForPrimes.Pairwise (· < ·) := by
  rw [ForPrimes_eq]
  exact survivors_sorted _

/-- The chunk loop of `main`, over any consecutive index interval: its output
is exactly the primes within the covered interval that satisfy the bound,
whether or not an early exit is taken. -/
theorem runChunks_out (maximum : Int) (pr : Range) (E : Nat)
    (hfp : pr.ForPrimes = (trackedUpTo E).filter (fun v => decide (Nat.Prime v)))
    (hE : Indexer.kSize ≤ E)
    (hEsq : maximum.toNat ≤ E * E)
    (halignE : E % Indexer.kSize = 0) :
    ∀ (n c0 : Nat),
      (runChunks maximum pr E (List.range' c0 n)).1
        = (List.range' (E + c0 * kChunkSize) (n * kChunkSize)).filter
            (fun a => decide (Nat.Prime a) && decide ((a : Int) ≤ maximum)) := by
  intro n
  induction n with
  | zero =>
    intro c0
    simp [runChunks]
  | succ n ih =>
    intro c0
    rw [List.range'_succ]
    have hoffE : E ≤ E + c0 * kChunkSize := Nat.le_add_right _ _
    have halign : (E + c0 * kChunkSize) % Indexer.kSize = 0 := by
      obtain ⟨a, ha⟩ := Nat.dvd_of_mod_eq_zero halignE
      obtain ⟨b, hb⟩ := kSize_dvd_kChunkSize
      rw [ha, hb]
      rw [show Indexer.kSize * a + c0 * (Indexer.kSize * b)
          = Indexer.kSize * (a + c0 * b) by ring]
      exact Nat.mul_mod_right _ _
    have hco := chunk_filter_eq maximum pr E (E + c0 * kChunkSize) hfp hE hEsq hoffE
      halign halignE
    have hsorted := sieveChunk_forPrimes_sorted pr (E + c0 * kChunkSize)
    obtain ⟨he1, he2⟩ := emitScan_out maximum (E + c0 * kChunkSize)
      ((sieveChunk pr (E + c0 * kChunkSize)).ForPrimes) hsorted
    have hsplit : List.range' (E + c0 * kChunkSize) ((n + 1) * kChunkSize)
        = List.range' (E + c0 * kChunkSize) kChunkSize
          ++ List.range' (E + (c0 + 1) * kChunkSize) (n * kChunkSize) := by
      have := List.range'_append_1 (E + c0 * kChunkSize) kChunkSize (n * kChunkSize)
      rw [show E + c0 * kChunkSize + kChunkSize = E + (c0 + 1) * kChunkSize by ring] at this
      rw [show n * kChunkSize + kChunkSize = (n + 1) * kChunkSize by ring] at this
      exact this.symm
    rw [hsplit, List.filter_append]
    by_cases hex : (emitScan maximum (E + c0 * kChunkSize)
        ((sieveChunk pr (E + c0 * kChunkSize)).ForPrimes)).2 = true
    · -- early exit in this chunk: the rest of the interval is beyond the bound
      have hunfold : runChunks maximum pr E
          ((c0 : Nat) :: List.range' (c0 + 1) n)
          = ((emitScan maximum (E + c0 * kChunkSize)
              ((sieveChunk pr (E + c0 * kChunkSize)).ForPrimes)).1, true) := by
        simp only [runChunks]
        rw [if_pos hex]
      rw [hunfold]
      obtain ⟨x, hxmem, hxgt⟩ := he2.mp hex
      have hxlt : x < kChunkLength * Indexer.kSize := by
        rw [ForPrimes_eq, mem_survivors, sieveChunk_size] at hxmem
        exact hxmem.1
      have hnil : (List.range' (E + (c0 + 1) * kChunkSize) (n * kChunkSize)).filter
          (fun a => decide (Nat.Prime a) && decide ((a : Int) ≤ maximum)) = [] := by
        rw [List.filter_eq_nil_iff]
        intro a ha
        obtain ⟨i, hi, rfl⟩ := List.mem_range'.mp ha
        have hage : E + (c0 + 1) * kChunkSize ≤ E + (c0 + 1) * kChunkSize + 1 * i := by
          omega
        have hxk : x < kChunkSize := by
          have := kChunk_comm
          omega
        have hgt : maximum < ((E + (c0 + 1) * kChunkSize + 1 * i : Nat) : Int) := by
          have hmul : (c0 + 1) * kChunkSize = c0 * kChunkSize + kChunkSize := by ring
          have h1 : x + (E + c0 * kChunkSize) < E + (c0 + 1) * kChunkSize + 1 * i := by
            omega
          have h2 : ((x + (E + c0 * kChunkSize) : Nat) : Int)
              < ((E + (c0 + 1) * kChunkSize + 1 * i : Nat) : Int) := by
            exact_mod_cast h1
          omega
        simp only [Bool.and_eq_true, decide_eq_true_eq]
        rintro ⟨-, hle⟩
        omega
      rw [hnil, List.append_nil, he1, hco]
    · have hexf : (emitScan maximum (E + c0 * kChunkSize)
          ((sieveChunk pr (E + c0 * kChunkSize)).ForPrimes)).2 = false := by
        rcases Bool.eq_false_or_eq_true ((emitScan maximum (E + c0 * kChunkSize)
            ((sieveChunk pr (E + c0 * kChunkSize)).ForPrimes)).2) with h | h
        · exact absurd h hex
        · exact h
      have hunfold : runChunks maximum pr E ((c0 : Nat) :: List.range' (c0 + 1) n)
          = ((emitScan maximum (E + c0 * kChunkSize)
                ((sieveChunk pr (E + c0 * kChunkSize)).ForPrimes)).1
              ++ (runChunks maximum pr E (List.range' (c0 + 1) n)).1,
            (runChunks maximum pr E (List.range' (c0 + 1) n)).2) := by
        simp only [runChunks]
        rw [if_neg hex]
      rw [hunfold]
      simp only []
      rw [he1, hco, ih (c0 + 1)]

/-! ## Assembling the output of `main` -/

theorem basePrimes_eq :
    (List.range 17).filter (fun a => decide (Nat.Prime a)) = basePrimes := by decide

theorem range_join (a b : Nat) :
    List.range a ++ List.range' a b = List.range (a + b) := by
  simp only [List.range_eq_range']
  have h := List.range'_append_1 0 a b
  rw [Nat.zero_add] at h
  rw [h, Nat.add_comm b a]

theorem range_split {a X : Nat} (h : a ≤ X) :
    List.range X = List.range a ++ List.range' a (X - a) := by
  have h2 := range_join a (X - a)
  rw [show a + (X - a) = X from by omega] at h2
  exact h2.symm

/-- Extending or trimming the filtered range beyond `maximum` does not change
the list of primes `≤ maximum`. -/
theorem stable_filter (maximum : Int) (h : 1 ≤ maximum) {X : Nat}
    (hX : maximum.toNat < X) :
    (List.range X).filter (fun a => decide (Nat.Prime a) && decide ((a : Int) ≤ maximum))
      = (List.range (maximum.toNat + 1)).filter (fun p => decide (Nat.Prime p)) := by
  rw [range_split (show maximum.toNat + 1 ≤ X from by omega), List.filter_append]
  have hnil : (List.range' (maximum.toNat + 1) (X - (maximum.toNat + 1))).filter
      (fun a => decide (Nat.Prime a) && decide ((a : Int) ≤ maximum)) = [] := by
    rw [List.filter_eq_nil_iff]
    intro a ha
    obtain ⟨i, hi, rfl⟩ := List.mem_range'.mp ha
    simp only [Bool.and_eq_true, decide_eq_true_eq]
    rintro ⟨-, hle⟩
    omega
  rw [hnil, List.append_nil]
  apply List.filter_congr
  intro a ha
  rw [List.mem_range] at ha
  have hle : ((a : Nat) : Int) ≤ maximum := by omega
  rw [decide_eq_true hle, Bool.and_true]

theorem base17_filter (maximum : Int) :
    (List.range 17).filter
        (fun a => decide (Nat.Prime a) && decide ((a : Int) ≤ maximum))
      = basePrimes.filter (fun x => decide (((x : Nat) : Int) ≤ maximum)) := by
  have h1 : (List.range 17).filter
      (fun a => decide (Nat.Prime a) && decide ((a : Int) ≤ maximum))
      = (List.range 17).filter
          (fun (a : Nat) => decide ((a : Int) ≤ maximum) && decide (Nat.Prime a)) :=
    List.filter_congr (fun a _ => Bool.and_comm _ _)
  rw [h1, ← List.filter_filter, basePrimes_eq]

/-- Splicing the base-prime output with the bootstrap output gives the primes
below `initial_end` that satisfy the bound. -/
theorem base_boot_splice (maximum : Int) (hm : 13 ≤ maximum) {E : Nat}
    (hE : Indexer.kSize ≤ E) :
    basePrimes ++ (trackedUpTo E).filter
        (fun v => decide (Nat.Prime v) && decide ((v : Int) ≤ maximum))
      = (List.range E).filter
          (fun a => decide (Nat.Prime a) && decide ((a : Int) ≤ maximum)) := by
  have h17 : 17 ≤ E := by
    have h2 : (17 : Nat) ≤ Indexer.kSize := by decide
    omega
  rw [range_split h17, List.filter_append]
  congr 1
  · rw [base17_filter]
    symm
    apply List.filter_eq_self.mpr
    intro a ha
    fin_cases ha <;>
      exact decide_eq_true (by push_cast; omega)
  · rw [trackedUpTo_eq, List.filter_filter, range_split h17, List.filter_append]
    have hnil : (List.range 17).filter
        (fun a => (decide (Nat.Prime a) && decide ((a : Int) ≤ maximum))
          && Indexer.tracked a) = [] := by
      rw [List.filter_eq_nil_iff]
      intro a ha
      rw [List.mem_range] at ha
      simp only [Bool.and_eq_true, decide_eq_true_eq]
      rintro ⟨⟨hp, -⟩, ht⟩
      have := (tracked_prime_iff hp).mp ht
      omega
    rw [hnil, List.nil_append]
    apply List.filter_congr
    intro a ha
    obtain ⟨i, hi, rfl⟩ := List.mem_range'.mp ha
    by_cases hp : Nat.Prime (17 + 1 * i)
    · have ht : Indexer.tracked (17 + 1 * i) = true :=
        (tracked_prime_iff hp).mpr (by omega)
      rw [ht, Bool.and_true]
    · have hd : decide (Nat.Prime (17 + 1 * i)) = false := decide_eq_false hp
      rw [hd]
      simp

theorem initial_end_geM (maximum : Int) (h : 1 ≤ maximum) :
    Indexer.kSize ≤ initial_end maximum := by
  have h1 := initial_length_pos maximum h
  unfold initial_end
  calc Indexer.kSize = 1 * Indexer.kSize := (Nat.one_mul _).symm
    _ ≤ initial_length maximum * Indexer.kSize := Nat.mul_le_mul_right _ h1

theorem initial_end_align (maximum : Int) :
    initial_end maximum % Indexer.kSize = 0 := by
  unfold initial_end
  exact Nat.mul_mod_left _ _

/-- The complete value sequence printed by `main` is exactly the increasing
list of primes up to the bound. -/
theorem mainValues_eq (maximum : Int) (h : 1 ≤ maximum)
    (hT : maximum ≤ 9223332313076481600) :
    mainValues maximum
      = (List.range (maximum.toNat + 1)).filter (fun p => decide (Nat.Prime p)) := by
  have hbase_sorted : basePrimes.Pairwise (· < ·) := by decide
  obtain ⟨hb1, hb2⟩ := emitScan_out maximum 0 basePrimes hbase_sorted
  have hb1s : (emitScan maximum 0 basePrimes).1
      = basePrimes.filter (fun x => decide (((x : Nat) : Int) ≤ maximum)) := by
    rw [hb1]
    simp [Nat.add_zero]
  by_cases hbex : (emitScan maximum 0 basePrimes).2 = true
  · -- a base prime already exceeds the bound: maximum < 13
    obtain ⟨x, hxmem, hxgt⟩ := hb2.mp hbex
    have hm13 : maximum < 13 := by
      fin_cases hxmem <;> (push_cast at hxgt; omega)
    unfold mainValues
    rw [if_pos hbex, List.append_nil, hb1s, ← base17_filter]
    exact stable_filter maximum h (by omega)
  · -- all six base primes emitted
    have hm13 : 13 ≤ maximum := by
      by_contra hlt
      push_neg at hlt
      have h13 : (13 : Nat) ∈ basePrimes := by decide
      have := hb2.mpr ⟨13, h13, by push_cast; omega⟩
      exact hbex this
    have hfull : basePrimes.filter (fun x => decide (((x : Nat) : Int) ≤ maximum)) = basePrimes :=
      List.filter_eq_self.mpr (by
        intro a ha
        fin_cases ha <;> exact decide_eq_true (by push_cast; omega))
    unfold mainValues
    rw [if_neg hbex, hb1s, hfull, if_pos (assertOk_safe maximum h hT)]
    obtain ⟨ho1, ho2, ho3, ho4⟩ := boot_out maximum (initial_length maximum)
    have hEM : Indexer.kSize ≤ initial_length maximum * Indexer.kSize :=
      initial_end_geM maximum h
    by_cases hbootex : (bootLoop maximum (positionsOf (initial_length maximum))
        (Range.new 0 (initial_length maximum))).2.2 = true
    · rw [if_pos hbootex, List.append_nil, ho1,
        base_boot_splice maximum hm13 hEM]
      obtain ⟨v, hvmem, hvp, hvgt⟩ := ho3.mp hbootex
      obtain ⟨hvE, -⟩ := mem_trackedUpTo.mp hvmem
      exact stable_filter maximum h (by omega)
    · have hbootexf : (bootLoop maximum (positionsOf (initial_length maximum))
          (Range.new 0 (initial_length maximum))).2.2 = false := by
        rcases Bool.eq_false_or_eq_true ((bootLoop maximum
            (positionsOf (initial_length maximum))
            (Range.new 0 (initial_length maximum))).2.2) with h2 | h2
        · exact absurd h2 hbootex
        · exact h2
      rw [if_neg hbootex, ho1]
      have hfp := boot_forPrimes maximum (initial_length maximum) hbootexf
      have hEsq : maximum.toNat
          ≤ (initial_length maximum * Indexer.kSize) * (initial_length maximum * Indexer.kSize) := by
        have := initial_end_sq maximum
        unfold initial_end at this
        exact this
      have halignE : (initial_length maximum * Indexer.kSize) % Indexer.kSize = 0 :=
        Nat.mul_mod_left _ _
      have hchout := runChunks_out maximum
        (bootLoop maximum (positionsOf (initial_length maximum))
          (Range.new 0 (initial_length maximum))).2.1
        (initial_length maximum * Indexer.kSize) hfp hEM hEsq halignE
        (chunk_count maximum) 0
      have hrc : List.range (chunk_count maximum)
          = List.range' 0 (chunk_count maximum) := List.range_eq_range' _
      have hEdef : initial_end maximum = initial_length maximum * Indexer.kSize := rfl
      rw [hEdef, hrc, hchout]
      rw [show initial_length maximum * Indexer.kSize + 0 * kChunkSize
          = initial_length maximum * Indexer.kSize from by ring]
      rw [← List.append_assoc, base_boot_splice maximum hm13 hEM, ← List.filter_append,
        range_join]
      have hcover : maximum.toNat
          ≤ initial_length maximum * Indexer.kSize + chunk_count maximum * kChunkSize := by
        have := chunks_cover maximum h
        unfold initial_end at this
        exact this
      rcases Nat.lt_or_ge maximum.toNat
          (initial_length maximum * Indexer.kSize + chunk_count maximum * kChunkSize)
        with hlt | hge
      · exact stable_filter maximum h hlt
      · -- the spans meet the bound exactly; the boundary value is even, not prime
        have hXeq : initial_length maximum * Indexer.kSize + chunk_count maximum * kChunkSize
            = maximum.toNat := by omega
        have hdvd2 : 2 ∣ initial_length maximum * Indexer.kSize
            + chunk_count maximum * kChunkSize := by
          have d1 : 2 ∣ Indexer.kSize := by decide
          have d2 : 2 ∣ kChunkSize := by decide
          exact Nat.dvd_add (Dvd.dvd.mul_left d1 _) (Dvd.dvd.mul_left d2 _)
        have hbig : Indexer.kSize ≤ initial_length maximum * Indexer.kSize
            + chunk_count maximum * kChunkSize := by omega
        have hnp : ¬ Nat.Prime (initial_length maximum * Indexer.kSize
            + chunk_count maximum * kChunkSize) := by
          intro hp
          rcases Nat.Prime.eq_one_or_self_of_dvd hp 2 hdvd2 with h2 | h2
          · omega
          · have h3 : (2 : Nat) < Indexer.kSize := by decide
            omega
        rw [hXeq] at hnp
        rw [hXeq, List.range_succ, List.filter_append]
        have hlast : List.filter (fun p => decide (Nat.Prime p)) [maximum.toNat] = [] := by
          simp [hnp]
        rw [hlast, List.append_nil]
        apply List.filter_congr
        intro a ha
        rw [List.mem_range] at ha
        have hle : ((a : Nat) : Int) ≤ maximum := by omega
        rw [decide_eq_true hle, Bool.and_true]

/-! ## Bound obedience of every emission site -/

theorem emitScan_le (maximum : Int) (offset : Nat) (xs : List Nat) :
    ∀ v ∈ (emitScan maximum offset xs).1, (v : Int) ≤ maximum := by
  induction xs with
  | nil =>
    intro v hv
    simp [emitScan] at hv
  | cons x xs ih =>
    intro v hv
    by_cases hb : (((x + offset : Nat) : Int) > maximum)
    · rw [show emitScan maximum offset (x :: xs) = ([], true) from by
        simp only [emitScan]; rw [if_pos hb]] at hv
      simp at hv
    · rw [show emitScan maximum offset (x :: xs)
          = ((x + offset) :: (emitScan maximum offset xs).1,
              (emitScan maximum offset xs).2) from by
        simp only [emitScan]; rw [if_neg hb]] at hv
      rcases List.mem_cons.mp hv with rfl | hv
      · omega
      · exact ih v hv

theorem bootLoop_le (maximum : Int) (ps : List (Nat × Nat)) (r : Range) :
    ∀ v ∈ (bootLoop maximum ps r).1, (v : Int) ≤ maximum := by
  induction ps generalizing r with
  | nil =>
    intro v hv
    simp [bootLoop] at hv
  | cons ji ps ih =>
    intro v hv
    simp only [bootLoop] at hv
    by_cases h1 : r.bits ji.1 ji.2 = true
    · rw [if_pos h1] at hv
      exact ih r v hv
    · rw [if_neg h1] at hv
      by_cases h2 : ((ji.1 * Indexer.kSize + Indexer.atIndex ji.2 : Nat) : Int) > maximum
      · rw [if_pos h2] at hv
        simp at hv
      · rw [if_neg h2] at hv
        rcases List.mem_cons.mp hv with rfl | hv
        · omega
        · exact ih _ v hv

theorem runChunks_le (maximum : Int) (pr : Range) (E : Nat) (cs : List Nat) :
    ∀ v ∈ (runChunks maximum pr E cs).1, (v : Int) ≤ maximum := by
  induction cs with
  | nil =>
    intro v hv
    simp [runChunks] at hv
  | cons c cs ih =>
    intro v hv
    simp only [runChunks] at hv
    by_cases h1 : (emitScan maximum (E + c * kChunkSize)
        ((sieveChunk pr (E + c * kChunkSize)).ForPrimes)).2 = true
    · rw [if_pos h1] at hv
      exact emitScan_le _ _ _ v hv
    · rw [if_neg h1] at hv
      rcases List.mem_append.mp hv with hv | hv
      · exact emitScan_le _ _ _ v hv
      · exact ih v hv

theorem mainValues_le (maximum : Int) :
    ∀ v ∈ mainValues maximum, (v : Int) ≤ maximum := by
  intro v hv
  unfold mainValues at hv
  rcases List.mem_append.mp hv with hv | hv
  · exact emitScan_le _ _ _ v hv
  · by_cases h1 : (emitScan maximum 0 basePrimes).2 = true
    · rw [if_pos h1] at hv
      simp at hv
    · rw [if_neg h1] at hv
      by_cases ha : assertOk maximum = true
      · rw [if_pos ha] at hv
        rcases List.mem_append.mp hv with hv | hv
        · exact bootLoop_le _ _ _ v hv
        · by_cases h2 : (bootLoop maximum (positionsOf (initial_length maximum))
              (Range.new 0 (initial_length maximum))).2.2 = true
          · rw [if_pos h2] at hv
            simp at hv
          · rw [if_neg h2] at hv
            exact runChunks_le _ _ _ _ v hv
      · rw [if_neg ha] at hv
        simp at hv

theorem mainValues_lt2 (maximum : Int) (h : maximum < 2) : mainValues maximum = [] := by
  have hb : emitScan maximum 0 basePrimes = ([], true) := by
    show emitScan maximum 0 (2 :: [3, 5, 7, 11, 13]) = ([], true)
    simp only [emitScan]
    rw [if_pos (by push_cast; omega)]
  unfold mainValues
  rw [hb]
  simp

/-! ## The output encoder -/

theorem leBytes_length (n : Nat) (p : Int) : (leBytes n p).length = n := by
  induction n generalizing p with
  | zero => rfl
  | succ n ih => simp [leBytes, ih]

theorem leBytes_lt (n : Nat) (p : Int) : ∀ b ∈ leBytes n p, b < 256 := by
  induction n generalizing p with
  | zero =>
    intro b hb
    simp [leBytes] at hb
  | succ n ih =>
    intro b hb
    simp only [leBytes, List.mem_cons] at hb
    rcases hb with rfl | hb
    · have h1 : 0 ≤ p % 256 := Int.emod_nonneg p (by omega)
      have h2 : p % 256 < 256 := Int.emod_lt_of_pos p (by omega)
      omega
    · exact ih (p / 256) b hb

theorem emod_mul_decomp (p a b : Int) (ha : 0 < a) (hb : 0 < b) :
    p % (a * b) = p % a + a * ((p / a) % b) := by
  have e1 := Int.ediv_add_emod p a
  have e2 := Int.ediv_add_emod (p / a) b
  have h1 : 0 ≤ p % a := Int.emod_nonneg p (by omega)
  have h2 : p % a < a := Int.emod_lt_of_pos p ha
  have h3 : 0 ≤ (p / a) % b := Int.emod_nonneg _ (by omega)
  have h4 : (p / a) % b < b := Int.emod_lt_of_pos _ hb
  have hdec : p = (p % a + a * ((p / a) % b)) + (a * b) * ((p / a) / b) := by
    calc p = a * (p / a) + p % a := by linarith [e1]
      _ = a * (b * ((p / a) / b) + (p / a) % b) + p % a := by rw [e2]
      _ = (p % a + a * ((p / a) % b)) + (a * b) * ((p / a) / b) := by ring
  have hR : 0 ≤ p % a + a * ((p / a) % b) := by
    have h6 := mul_nonneg (le_of_lt ha) h3
    omega
  have hRlt : p % a + a * ((p / a) % b) < a * b := by
    have h5 : a * ((p / a) % b) ≤ a * (b - 1) :=
      mul_le_mul_of_nonneg_left (by omega) (by omega)
    nlinarith
  calc p % (a * b)
      = ((p % a + a * ((p / a) % b)) + (a * b) * ((p / a) / b)) % (a * b) := by
        rw [← hdec]
    _ = (p % a + a * ((p / a) % b)) % (a * b) := by
        rw [Int.add_mul_emod_self_left]
    _ = p % a + a * ((p / a) % b) := Int.emod_eq_of_lt hR hRlt

theorem decodeNat_leBytes (n : Nat) (p : Int) :
    ((decodeNat (leBytes n p) : Nat) : Int) = p % (2 ^ (8 * n)) := by
  induction n generalizing p with
  | zero =>
    simp [leBytes, decodeNat]
  | succ n ih =>
    rw [show leBytes (n + 1) p = (p % 256).toNat :: leBytes n (p / 256) from rfl]
    rw [show decodeNat ((p % 256).toNat :: leBytes n (p / 256))
        = (p % 256).toNat + 256 * decodeNat (leBytes n (p / 256)) from rfl]
    push_cast
    rw [ih (p / 256)]
    have h1 : 0 ≤ p % 256 := Int.emod_nonneg p (by omega)
    rw [Int.toNat_of_nonneg h1]
    have key := emod_mul_decomp p 256 (2 ^ (8 * n)) (by omega) (by positivity)
    have hpow : (256 : Int) * 2 ^ (8 * n) = 2 ^ (8 * (n + 1)) := by
      rw [show 8 * (n + 1) = 8 * n + 8 from by ring, pow_add]
      ring
    rw [hpow] at key
    omega

theorem decodeNat_lt (bs : List Nat) (h : ∀ b ∈ bs, b < 256) :
    decodeNat bs < 256 ^ bs.length := by
  induction bs with
  | nil => simp [decodeNat]
  | cons b bs ih =>
    have hb := h b (List.mem_cons_self _ _)
    have ih2 := ih (fun x hx => h x (List.mem_cons_of_mem _ hx))
    rw [show decodeNat (b :: bs) = b + 256 * decodeNat bs from rfl]
    rw [List.length_cons, pow_succ]
    have h2 : 256 * decodeNat bs ≤ 256 * (256 ^ bs.length - 1) := by
      apply Nat.mul_le_mul_left
      omega
    have h3 : 0 < 256 ^ bs.length := Nat.pos_pow_of_pos _ (by omega)
    calc b + 256 * decodeNat bs ≤ b + 256 * (256 ^ bs.length - 1) := by omega
      _ < 256 ^ bs.length * 256 := by
          rw [Nat.mul_sub_one]
          have h4 : 256 ^ bs.length * 256 = 256 * 256 ^ bs.length := Nat.mul_comm _ _
          omega

theorem decode_encode (p : Int) (h1 : -(2 ^ 63) ≤ p) (h2 : p < 2 ^ 63) :
    decodeLE (PrintLittleEndian p) = p := by
  unfold decodeLE PrintLittleEndian
  have hd := decodeNat_leBytes 8 p
  rw [show 8 * 8 = 64 from rfl] at hd
  have e63 : (2 : Int) ^ 63 = 9223372036854775808 := by norm_num
  have e64 : (2 : Int) ^ 64 = 18446744073709551616 := by norm_num
  have e63n : (2 : Nat) ^ 63 = 9223372036854775808 := by norm_num
  rw [e63] at h1 h2
  rw [e64] at hd ⊢
  rw [e63n]
  by_cases hp : 0 ≤ p
  · have hmod : p % 18446744073709551616 = p := Int.emod_eq_of_lt hp (by omega)
    rw [hmod] at hd
    rw [if_pos (by omega)]
    omega
  · push_neg at hp
    have hm1 : (p + 18446744073709551616) % 18446744073709551616
        = p % 18446744073709551616 := by
      have := Int.add_mul_emod_self_left (a := p) (b := (18446744073709551616 : Int))
        (c := 1)
      rw [Int.mul_one] at this
      exact this
    have hm2 : (p + 18446744073709551616) % 18446744073709551616
        = p + 18446744073709551616 := Int.emod_eq_of_lt (by omega) (by omega)
    have hmod : p % 18446744073709551616 = p + 18446744073709551616 := by
      omega
    rw [hmod] at hd
    rw [if_neg (by omega)]
    omega

theorem leBytes_decodeNat (bs : List Nat) (h : ∀ b ∈ bs, b < 256) :
    leBytes bs.length ((decodeNat bs : Nat) : Int) = bs := by
  induction bs with
  | nil => rfl
  | cons b bs ih =>
    have hb := h b (List.mem_cons_self _ _)
    rw [List.length_cons]
    rw [show decodeNat (b :: bs) = b + 256 * decodeNat bs from rfl]
    rw [show leBytes (bs.length + 1) ((b + 256 * decodeNat bs : Nat) : Int)
        = ((((b + 256 * decodeNat bs : Nat) : Int) % 256).toNat
            :: leBytes bs.length (((b + 256 * decodeNat bs : Nat) : Int) / 256)) from rfl]
    have hcast : ((b + 256 * decodeNat bs : Nat) : Int)
        = (b : Int) + 256 * (decodeNat bs : Nat) := by push_cast; ring
    have hmod : (((b + 256 * decodeNat bs : Nat) : Int) % 256) = (b : Int) := by
      rw [hcast, Int.add_mul_emod_self_left]
      exact Int.emod_eq_of_lt (by omega) (by exact_mod_cast hb)
    have hdiv : (((b + 256 * decodeNat bs : Nat) : Int) / 256)
        = ((decodeNat bs : Nat) : Int) := by
      rw [hcast]
      rw [show (b : Int) + 256 * (decodeNat bs : Nat)
          = (b : Int) + ((decodeNat bs : Nat) : Int) * 256 from by ring]
      rw [Int.add_mul_ediv_right _ _ (by omega : (256 : Int) ≠ 0)]
      rw [Int.ediv_eq_zero_of_lt (by omega) (by exact_mod_cast hb)]
      omega
    rw [hmod, hdiv, ih (fun x hx => h x (List.mem_cons_of_mem _ hx))]
    congr 1

theorem leBytes_add_pow (n : Nat) (v k : Int) :
    leBytes n (v + 2 ^ (8 * n) * k) = leBytes n v := by
  induction n generalizing v k with
  | zero => rfl
  | succ n ih =>
    have hshape : v + 2 ^ (8 * (n + 1)) * k = v + (2 ^ (8 * n) * k) * 256 := by
      rw [show 8 * (n + 1) = 8 * n + 8 from by ring, pow_add]
      ring
    rw [show leBytes (n + 1) (v + 2 ^ (8 * (n + 1)) * k)
        = (((v + 2 ^ (8 * (n + 1)) * k) % 256).toNat
            :: leBytes n ((v + 2 ^ (8 * (n + 1)) * k) / 256)) from rfl]
    rw [show leBytes (n + 1) v = ((v % 256).toNat :: leBytes n (v / 256)) from rfl]
    have hmod : (v + 2 ^ (8 * (n + 1)) * k) % 256 = v % 256 := by
      rw [hshape, Int.add_mul_emod_self]
    have hdiv : (v + 2 ^ (8 * (n + 1)) * k) / 256 = v / 256 + 2 ^ (8 * n) * k := by
      rw [hshape, Int.add_mul_ediv_right _ _ (by omega : (256 : Int) ≠ 0)]
    rw [hmod, hdiv, ih]

theorem encode_decode (bs : List Nat) (hlen : bs.length = 8)
    (hlt : ∀ b ∈ bs, b < 256) :
    PrintLittleEndian (decodeLE bs) = bs := by
  unfold PrintLittleEndian decodeLE
  by_cases hc : decodeNat bs < 2 ^ 63
  · rw [if_pos hc]
    rw [← hlen]
    exact leBytes_decodeNat bs hlt
  · rw [if_neg hc]
    have hsub : ((decodeNat bs : Nat) : Int) - 2 ^ 64
        = ((decodeNat bs : Nat) : Int) + 2 ^ (8 * 8) * (-1) := by
      rw [show (8 * 8 : Nat) = 64 from rfl]
      ring
    rw [hsub, leBytes_add_pow 8 ((decodeNat bs : Nat) : Int) (-1), ← hlen]
    exact leBytes_decodeNat bs hlt

theorem decodeStream_flatMap (vs : List Int)
    (h : ∀ v ∈ vs, -(2 ^ 63) ≤ v ∧ v < 2 ^ 63) :
    decodeStream (vs.flatMap (fun p => PrintLittleEndian p)) = vs := by
  induction vs with
  | nil => rfl
  | cons v vs ih =>
    obtain ⟨h1, h2⟩ := h v (List.mem_cons_self _ _)
    have ih2 := ih (fun x hx => h x (List.mem_cons_of_mem _ hx))
    rw [List.flatMap_cons]
    rw [show PrintLittleEndian v
        = [(leBytes 8 v).getD 0 0, (leBytes 8 v).getD 1 0, (leBytes 8 v).getD 2 0,
            (leBytes 8 v).getD 3 0, (leBytes 8 v).getD 4 0, (leBytes 8 v).getD 5 0,
            (leBytes 8 v).getD 6 0, (leBytes 8 v).getD 7 0] from rfl]
    rw [show ([(leBytes 8 v).getD 0 0, (leBytes 8 v).getD 1 0, (leBytes 8 v).getD 2 0,
            (leBytes 8 v).getD 3 0, (leBytes 8 v).getD 4 0, (leBytes 8 v).getD 5 0,
            (leBytes 8 v).getD 6 0, (leBytes 8 v).getD 7 0] : List Nat)
          ++ vs.flatMap (fun p => PrintLittleEndian p)
        = (leBytes 8 v).getD 0 0 :: (leBytes 8 v).getD 1 0 :: (leBytes 8 v).getD 2 0
            :: (leBytes 8 v).getD 3 0 :: (leBytes 8 v).getD 4 0 :: (leBytes 8 v).getD 5 0
            :: (leBytes 8 v).getD 6 0 :: (leBytes 8 v).getD 7 0
            :: vs.flatMap (fun p => PrintLittleEndian p) from rfl]
    rw [show decodeStream ((leBytes 8 v).getD 0 0 :: (leBytes 8 v).getD 1 0
            :: (leBytes 8 v).getD 2 0 :: (leBytes 8 v).getD 3 0 :: (leBytes 8 v).getD 4 0
            :: (leBytes 8 v).getD 5 0 :: (leBytes 8 v).getD 6 0 :: (leBytes 8 v).getD 7 0
            :: vs.flatMap (fun p => PrintLittleEndian p))
        = decodeLE [(leBytes 8 v).getD 0 0, (leBytes 8 v).getD 1 0, (leBytes 8 v).getD 2 0,
            (leBytes 8 v).getD 3 0, (leBytes 8 v).getD 4 0, (leBytes 8 v).getD 5 0,
            (leBytes 8 v).getD 6 0, (leBytes 8 v).getD 7 0]
            :: decodeStream (vs.flatMap (fun p => PrintLittleEndian p)) from rfl]
    rw [show ([(leBytes 8 v).getD 0 0, (leBytes 8 v).getD 1 0, (leBytes 8 v).getD 2 0,
            (leBytes 8 v).getD 3 0, (leBytes 8 v).getD 4 0, (leBytes 8 v).getD 5 0,
            (leBytes 8 v).getD 6 0, (leBytes 8 v).getD 7 0] : List Nat)
        = PrintLittleEndian v from rfl]
    rw [decode_encode v h1 h2, ih2]

/-! ## Shared helper for the `Sieve` bit characterization -/

theorem Sieve_bits_iff (r : Range) (p : Nat) (hp : 0 < p) (j i : Nat)
    (hi : i < Indexer.kBits) :
    ((r.Sieve p).bits j i = true ↔
      r.bits j i = true ∨
        (j < r.size ∧ p ∣ (r.offset + (j * Indexer.kSize + Indexer.atIndex i)))) := by
  by_cases hj : j < r.size
  · have hv : (j * Indexer.kSize + Indexer.atIndex i) < r.size * Indexer.kSize :=
      @valOf_lt _ (j, i) hj hi
    have htr : Indexer.tracked (j * Indexer.kSize + Indexer.atIndex i) = true :=
      @tracked_valOf (j, i) hi
    have h1 := Sieve_markedVal (r := r) (p := p) hp htr hv
    have h2 : r.markedVal (j * Indexer.kSize + Indexer.atIndex i) = r.bits j i :=
      @markedVal_valOf r (j, i) hi
    have h3 : (r.Sieve p).markedVal (j * Indexer.kSize + Indexer.atIndex i)
        = (r.Sieve p).bits j i := @markedVal_valOf (r.Sieve p) (j, i) hi
    rw [h2, h3] at h1
    rw [h1]
    tauto
  · have hch : ((r.Sieve p).bits j i = true ↔ r.bits j i = true) := by
      unfold Range.Sieve Range.SieveFrom
      rw [foldl_markStep_iff]
      constructor
      · rintro (hb | ⟨o, hoL, -, hdiv, -⟩)
        · exact hb
        · exfalso
          obtain ⟨-, holt, -⟩ := (mem_hitsL hp).mp hoL
          have hlt := (Nat.div_lt_iff_lt_mul kSize_pos).mpr holt
          omega
      · intro hb
        exact Or.inl hb
    rw [hch]
    constructor
    · intro hb
      exact Or.inl hb
    · rintro (hb | ⟨hjs, -⟩)
      · exact hb
      · exact absurd hjs hj

/-! ## The claims -/

/-- C1 (amended): for every bound `N` with `1 ≤ N ≤ 3036993960² =
9223332313076481600` given as the single argument, the byte stream written to
stdout is exactly the concatenation of the 8-byte little-endian encodings of
all primes `p ≤ N`, in strictly increasing order, with no duplicates, no
composites, and no prime `≤ N` missing.  (Beyond that threshold the `int64_t`
square in the assertion of `main` overflows, the assertion fails and the
stream is cut off after the six base primes: see the counterexample.) -/
theorem C1_output_is_primes (maximum : Int) (h : 1 ≤ maximum)
    (hT : maximum ≤ 9223332313076481600) :
    mainBytes maximum
      = (primesUpTo maximum.toNat).flatMap (fun p => PrintLittleEndian (p : Int)) := by
  unfold mainBytes primesUpTo
  rw [mainValues_eq maximum h hT]

theorem C1_output_is_primes_witness :
    (1 : Int) ≤ 30 ∧ (30 : Int) ≤ 9223332313076481600 ∧
    mainBytes 30 = (primesUpTo (30 : Int).toNat).flatMap
      (fun p => PrintLittleEndian (p : Int)) :=
  ⟨by decide, by decide, C1_output_is_primes 30 (by decide) (by decide)⟩

/-- C1 counterexample: at the bound `2⁶³ − 1` the assertion of `main` fails
(the `int64_t` square overflows), the program aborts after the base-prime
loop, and the emitted values are only `[2, 3, 5, 7, 11, 13]` — the prime
`17 ≤ N` is missing from the output. -/
theorem C1_counterexample :
    (1 : Int) ≤ 9223372036854775807 ∧
    mainValues 9223372036854775807 = [2, 3, 5, 7, 11, 13] ∧
    Nat.Prime 17 ∧ ((17 : Nat) : Int) ≤ 9223372036854775807 ∧
    (17 : Nat) ∉ mainValues 9223372036854775807 := by
  refine ⟨by decide, mainValues_max64, by decide, by decide, ?_⟩
  rw [mainValues_max64]
  decide

/-- C2 (amended): the program never writes a value exceeding the bound (this
holds on every path, including the assertion abort); on the overflow-free
range `0 ≤ N ≤ 9223332313076481600` the bound check is the success-path
termination (`exit(0)`), so the run has exit status 0 and no diagnostics; for
a bound below 2 nothing is written at all.  (Above that range the assertion
aborts the run with a nonzero status and a diagnostic: see the
counterexample.) -/
theorem C2_never_exceeds_bound (maximum : Int) :
    (∀ v ∈ mainValues maximum, (v : Int) ≤ maximum) ∧
    (0 ≤ maximum → maximum ≤ 9223332313076481600 →
      (run [maximum]).status = 0 ∧ (run [maximum]).err = []) ∧
    (maximum < 2 → mainValues maximum = []) :=
  ⟨mainValues_le maximum, fun h0 hT => run_status_safe maximum h0 hT,
    mainValues_lt2 maximum⟩

theorem C2_never_exceeds_bound_witness :
    (∀ v ∈ mainValues 5, (v : Int) ≤ 5) ∧ (run [(5 : Int)]).status = 0 :=
  ⟨(C2_never_exceeds_bound 5).1, ((C2_never_exceeds_bound 5).2.1 (by decide) (by decide)).1⟩

/-- C2 counterexample: at the bound `2⁶³ − 1` the run does not end with status
0 and no diagnostics: the assertion aborts it with status 134 and the
assertion message on stderr. -/
theorem C2_counterexample :
    (run [(9223372036854775807 : Int)]).status = 134 ∧
    (run [(9223372036854775807 : Int)]).err = [assertMsg] := by
  rw [run_max64]
  exact ⟨rfl, rfl⟩

/-- C3: for a prime `p ≥ 17` and `2 ≤ k ≤ 16`, the residue of `k·p` mod 30030
is not tracked by the wheel (`k` has a factor among 2,3,5,7,11,13), so starting
the bootstrap self-sieve at `17·p` misses no composite and every value the
bootstrap scan emits is prime. -/
theorem C3_bootstrap_start_17 (p : Nat) (hp : Nat.Prime p) (h17 : 17 ≤ p) :
    (∀ k, 2 ≤ k → k ≤ 16 → Indexer.tracked (k * p % Indexer.kSize) = false) ∧
    (∀ (maximum : Int) (s : Nat),
      ∀ v ∈ (bootLoop maximum (positionsOf s) (Range.new 0 s)).1, Nat.Prime v) := by
  constructor
  · intro k h2 h16
    have hbase : 2 ∣ k ∨ 3 ∣ k ∨ 5 ∣ k ∨ 7 ∣ k ∨ 11 ∣ k ∨ 13 ∣ k := by
      interval_cases k <;> decide
    rw [tracked_false_iff]
    rcases hbase with hd | hd | hd | hd | hd | hd
    · exact Or.inl ((Nat.dvd_mod_iff (by decide)).mpr (Dvd.dvd.mul_right hd p))
    · exact Or.inr (Or.inl ((Nat.dvd_mod_iff (by decide)).mpr (Dvd.dvd.mul_right hd p)))
    · exact Or.inr (Or.inr (Or.inl ((Nat.dvd_mod_iff (by decide)).mpr
        (Dvd.dvd.mul_right hd p))))
    · exact Or.inr (Or.inr (Or.inr (Or.inl ((Nat.dvd_mod_iff (by decide)).mpr
        (Dvd.dvd.mul_right hd p)))))
    · exact Or.inr (Or.inr (Or.inr (Or.inr (Or.inl ((Nat.dvd_mod_iff (by decide)).mpr
        (Dvd.dvd.mul_right hd p))))))
    · exact Or.inr (Or.inr (Or.inr (Or.inr (Or.inr ((Nat.dvd_mod_iff (by decide)).mpr
        (Dvd.dvd.mul_right hd p))))))
  · intro maximum s v hv
    obtain ⟨h1, -, -, -⟩ := boot_out maximum s
    rw [h1, List.mem_filter] at hv
    obtain ⟨-, hv2⟩ := hv
    simp only [Bool.and_eq_true, decide_eq_true_eq] at hv2
    exact hv2.1

theorem C3_bootstrap_start_17_witness :
    Nat.Prime 17 ∧ Indexer.tracked (2 * 17 % Indexer.kSize) = false :=
  ⟨by decide, (C3_bootstrap_start_17 17 (by decide) (by decide)).1 2 (by decide) (by decide)⟩

/-- C4 counterexample: `ForPrimes` on a `Range` with `offset = kSize` first
invokes the visitor with the value 1 (relative to the range start), not with
the absolute integer `offset + 0·kSize + atIndex[0] = 30031` that the claim
requires. -/
theorem C4_counterexample :
    (Range.new Indexer.kSize 1).ForPrimes.getD 0 0 = 1 ∧
    (Range.new Indexer.kSize 1).offset + 0 * Indexer.kSize + Indexer.atIndex 0 = 30031 ∧
    (1 : Nat) ≠ 30031 := by
  refine ⟨?_, ?_, by decide⟩
  · rw [ForPrimes_eq]
    unfold Range.survivors
    have hall : ∀ v ∈ trackedUpTo ((Range.new Indexer.kSize 1).size * Indexer.kSize),
        (!(Range.new Indexer.kSize 1).markedVal v) = true := by
      intro v hv
      rw [new_markedVal_pos (by decide : (0 : Nat) < Indexer.kSize)]
      rfl
    rw [List.filter_eq_self.mpr hall]
    rw [show (Range.new Indexer.kSize 1).size * Indexer.kSize = Indexer.kSize from
      by rw [new_size, Nat.one_mul]]
    rw [trackedUpTo_eq, ← atIndexL_eq]
    exact atIndex_zero
  · rw [new_offset, atIndex_zero]
    decide

/-- C4 (amended): `ForPrimes` invokes the visitor once for each zero bit, in
strictly increasing order, with the value `block·kSize + atIndex[bit]`
*relative to the range start* (the absolute integer minus `offset`; the
callers of `ForPrimes` add `offset` back themselves). -/
theorem C4_forPrimes_relative (r : Range) :
    r.ForPrimes.Pairwise (· < ·) ∧
    (∀ v, v ∈ r.ForPrimes ↔
      ∃ j i, j < r.size ∧ i < Indexer.kBits ∧ r.bits j i = false ∧
        v = j * Indexer.kSize + Indexer.atIndex i) := by
  constructor
  · rw [ForPrimes_eq]
    exact survivors_sorted r
  · intro v
    rw [ForPrimes_eq, mem_survivors]
    constructor
    · rintro ⟨h1, h2, h3⟩
      have hmod : v % Indexer.kSize < Indexer.kSize := Nat.mod_lt _ kSize_pos
      have htrm : Indexer.tracked (v % Indexer.kSize) = true := by
        rw [tracked_mod]
        exact h2
      refine ⟨v / Indexer.kSize, Indexer.rankOf (v % Indexer.kSize), ?_, ?_, ?_, ?_⟩
      · by_contra hge
        push_neg at hge
        have h4 : r.size * Indexer.kSize ≤ (v / Indexer.kSize) * Indexer.kSize :=
          Nat.mul_le_mul_right _ hge
        have h5 := Nat.div_add_mod v Indexer.kSize
        have h6 : Indexer.kSize * (v / Indexer.kSize)
            = (v / Indexer.kSize) * Indexer.kSize := Nat.mul_comm _ _
        omega
      · exact rankOf_lt_kBits htrm hmod
      · exact h3
      · rw [atIndex_rankOf htrm hmod]
        have h5 := Nat.div_add_mod v Indexer.kSize
        have h6 : Indexer.kSize * (v / Indexer.kSize)
            = (v / Indexer.kSize) * Indexer.kSize := Nat.mul_comm _ _
        omega
    · rintro ⟨j, i, hj, hi, hb, rfl⟩
      obtain ⟨hlt, htr⟩ := atIndex_tracked_lt hi
      refine ⟨@valOf_lt _ (j, i) hj hi, @tracked_valOf (j, i) hi, ?_⟩
      exact (@markedVal_valOf r (j, i) hi).trans hb

/-- C5: `MinusMod(x, p)` computes `(-x) mod p` for the program's non-negative
arguments, and `Range::Sieve(p)` sets exactly the bits of the tracked values
whose absolute integer `offset + block·kSize + atIndex[bit]` is a multiple of
`p`, leaving every other bit unchanged. -/
theorem C5_sieve_marks_multiples :
    (∀ x p : Int, 0 ≤ x → 0 < p → MinusMod x p = (-x) % p) ∧
    (∀ (r : Range) (p : Nat), 0 < p → ∀ j i, i < Indexer.kBits →
      ((r.Sieve p).bits j i = true ↔
        r.bits j i = true ∨
          (j < r.size ∧ p ∣ (r.offset + (j * Indexer.kSize + Indexer.atIndex i))))) := by
  constructor
  · intro x p hx hp
    exact minusMod_int hx hp
  · intro r p hp j i hi
    exact Sieve_bits_iff r p hp j i hi

theorem C5_sieve_marks_multiples_witness :
    MinusMod 5 7 = (-5) % 7 ∧
    (((Range.new 0 1).Sieve 30029).bits 0 0 = true ↔
      (Range.new 0 1).bits 0 0 = true ∨
        ((0 : Nat) < (Range.new 0 1).size ∧
          30029 ∣ ((Range.new 0 1).offset + (0 * Indexer.kSize + Indexer.atIndex 0)))) :=
  ⟨C5_sieve_marks_multiples.1 5 7 (by decide) (by decide),
   C5_sieve_marks_multiples.2 (Range.new 0 1) 30029 (by decide) 0 0 (by decide)⟩

/-- C6: the wheel tables: exactly `kBits = 5760` residues in `[0, kSize)` are
tracked; `indexOf` maps exactly the tracked residues bijectively onto
`[0, kBits)` and every other residue to `-1`; `atIndex` is the inverse of
`indexOf` on tracked residues and is strictly increasing, with
`atIndex[0] = 1`. -/
theorem C6_indexer_bijection :
    Indexer.atIndexL.length = Indexer.kBits ∧
    (∀ n, n < Indexer.kSize → (Indexer.indexOf n = -1 ↔ Indexer.tracked n = false)) ∧
    (∀ n, n < Indexer.kSize → Indexer.tracked n = true →
      Indexer.indexOf n = (Indexer.rankOf n : Int) ∧
        Indexer.rankOf n < Indexer.kBits ∧
        Indexer.atIndex (Indexer.rankOf n) = n) ∧
    (∀ i, i < Indexer.kBits → Indexer.tracked (Indexer.atIndex i) = true ∧
      Indexer.atIndex i < Indexer.kSize ∧ Indexer.rankOf (Indexer.atIndex i) = i) ∧
    (∀ i j, i < j → j < Indexer.kBits → Indexer.atIndex i < Indexer.atIndex j) ∧
    Indexer.atIndex 0 = 1 := by
  refine ⟨atIndexL_length, ?_, ?_, ?_, ?_, atIndex_zero⟩
  · intro n hn
    unfold Indexer.indexOf
    constructor
    · intro he
      rcases Bool.eq_false_or_eq_true (Indexer.tracked n) with h | h
      · rw [if_pos h] at he
        exfalso
        omega
      · exact h
    · intro hf
      rw [if_neg (by rw [hf]; exact Bool.false_ne_true)]
  · intro n hn ht
    refine ⟨?_, rankOf_lt_kBits ht hn, atIndex_rankOf ht hn⟩
    unfold Indexer.indexOf
    rw [if_pos ht]
  · intro i hi
    obtain ⟨h1, h2⟩ := atIndex_tracked_lt hi
    exact ⟨h2, h1, rankOf_atIndex hi⟩
  · intro i j hij hj
    exact atIndex_strictMono hij hj

/-- C7: `PrintLittleEndian` writes exactly 8 bytes, least significant first;
the encoding is a bijection between the signed 64-bit range and 8-byte
blocks, so decoding the output stream as consecutive 8-byte little-endian
integers and re-encoding reproduces the byte stream exactly. -/
theorem C7_le_bijection :
    (∀ p : Int, (PrintLittleEndian p).length = 8 ∧ ∀ b ∈ PrintLittleEndian p, b < 256) ∧
    (∀ p : Int, -(2 ^ 63) ≤ p → p < 2 ^ 63 → decodeLE (PrintLittleEndian p) = p) ∧
    (∀ bs : List Nat, bs.length = 8 → (∀ b ∈ bs, b < 256) →
      PrintLittleEndian (decodeLE bs) = bs) ∧
    (∀ vs : List Int, (∀ v ∈ vs, -(2 ^ 63) ≤ v ∧ v < 2 ^ 63) →
      (decodeStream (vs.flatMap (fun p => PrintLittleEndian p))).flatMap
          (fun p => PrintLittleEndian p)
        = vs.flatMap (fun p => PrintLittleEndian p)) := by
  refine ⟨?_, decode_encode, encode_decode, ?_⟩
  · intro p
    exact ⟨leBytes_length 8 p, leBytes_lt 8 p⟩
  · intro vs h
    rw [decodeStream_flatMap vs h]

/-- C8 (amended): `initial_length` is the least number of wheel blocks whose
span reaches `⌈√maximum⌉` (the `long double` square root modelled by the exact
real square root), and the mathematical inequality
`initial_end² ≥ maximum` always holds; but the assertion of `main` computes
the square in `int64_t`, so for `1 ≤ maximum < 2⁶³` it succeeds exactly when
`maximum ≤ 3036993960² = 9223332313076481600` — above that the square
overflows, wraps negative, and the assertion fails. -/
theorem C8_initial_length (maximum : Int) (h : 1 ≤ maximum) (h63 : maximum < 2 ^ 63) :
    sqrtCeil maximum.toNat ≤ initial_length maximum * Indexer.kSize ∧
    (∀ k, sqrtCeil maximum.toNat ≤ k * Indexer.kSize → initial_length maximum ≤ k) ∧
    maximum ≤ ((initial_end maximum : Nat) : Int) * ((initial_end maximum : Nat) : Int) ∧
    (assertOk maximum = true ↔ maximum ≤ 9223332313076481600) := by
  have h1 := initial_end_ge maximum
  refine ⟨h1, fun k hk => initial_length_min maximum hk, ?_, ?_, ?_⟩
  · have h2 := initial_end_sq maximum
    have h3 : ((maximum.toNat : Nat) : Int)
        ≤ ((initial_end maximum * initial_end maximum : Nat) : Int) := by
      exact_mod_cast h2
    push_cast at h3
    omega
  · intro hA
    by_contra hgt
    push_neg at hgt
    rw [assertOk_overflow maximum hgt h63] at hA
    exact Bool.false_ne_true hA
  · intro hT
    exact assertOk_safe maximum h hT

theorem C8_initial_length_witness :
    (1 : Int) ≤ 30 ∧ (30 : Int) < 2 ^ 63 ∧
      (assertOk 30 = true ↔ (30 : Int) ≤ 9223332313076481600) :=
  ⟨by decide, by decide, (C8_initial_length 30 (by decide) (by decide)).2.2.2⟩

/-- C8 counterexample: at the bound `2⁶³ − 1 ≥ 1` the computed segment end is
`3037023990`, whose `int64_t` square wraps negative: the assertion of `main`
fails. -/
theorem C8_counterexample :
    (1 : Int) ≤ 9223372036854775807 ∧
    initial_end 9223372036854775807 = 3037023990 ∧
    toInt64 (((3037023990 : Nat) : Int) * ((3037023990 : Nat) : Int))
        = -9223229357874031516 ∧
    assertOk 9223372036854775807 = false :=
  ⟨by decide, initial_end_max64, by decide, assertOk_max64⟩

/-- C9 (amended): the usage error (argument count other than one) prints the
two usage lines to stderr, writes nothing and exits with status 1; but it is
not the only nonzero exit: with exactly one argument `0 ≤ N < 2⁶³` the status
is nonzero exactly when `N > 9223332313076481600`, where the overflowing
assertion aborts the run; on the overflow-free range the status is 0 with an
empty stderr (including bounds below 2, which produce an empty stream). -/
theorem C9_exit_status :
    (∀ args : List Int, args.length ≠ 1 →
      (run args).status = 1 ∧ (run args).out = [] ∧
        (run args).err = [usageMsg1, usageMsg2]) ∧
    (∀ m : Int, 0 ≤ m → m < 2 ^ 63 →
      ((run [m]).status ≠ 0 ↔ 9223332313076481600 < m)) ∧
    (∀ m : Int, 0 ≤ m → m ≤ 9223332313076481600 →
      (run [m]).status = 0 ∧ (run [m]).err = []) ∧
    (∀ m : Int, 0 ≤ m → m < 2 → (run [m]).out = []) := by
  refine ⟨?_, ?_, ?_, ?_⟩
  · intro args hargs
    rcases args with - | ⟨a, - | ⟨b, rest⟩⟩
    · exact ⟨rfl, rfl, rfl⟩
    · simp at hargs
    · exact ⟨rfl, rfl, rfl⟩
  · intro m h0 h63
    constructor
    · intro hne
      by_contra hle
      push_neg at hle
      exact hne (run_status_safe m h0 hle).1
    · intro hgt
      have hk30 : (9223332313076481600 : Int) ≤ m := le_of_lt hgt
      have h13 : (13 : Int) ≤ m := by omega
      have habort := run_abort m h13 (assertOk_overflow m hgt h63)
      rw [habort]
      intro hc
      have h134 : (134 : Nat) = 0 := hc
      omega
  · intro m h0 hT
    exact run_status_safe m h0 hT
  · intro m h0 hm
    have hout : (run [m]).out = mainBytes m := by
      rw [run_single]
      by_cases hc : (emitScan m 0 basePrimes).2 = false ∧ assertOk m = false
      · rw [if_pos hc]
      · rw [if_neg hc]
    rw [hout]
    unfold mainBytes
    rw [mainValues_lt2 m hm]
    rfl

/-- C9 counterexample: a run with exactly one argument (`2⁶³ − 1`) still exits
nonzero — the assertion abort — refuting status-nonzero-iff-usage-error. -/
theorem C9_counterexample :
    ([(9223372036854775807 : Int)] : List Int).length = 1 ∧
    (run [(9223372036854775807 : Int)]).status ≠ 0 ∧
    (run [(9223372036854775807 : Int)]).err ≠ [] := by
  have hs := run_max64
  refine ⟨rfl, ?_, ?_⟩
  · rw [hs]
    intro hc
    have h134 : (134 : Nat) = 0 := hc
    omega
  · rw [hs]
    intro hc
    have hlen : ([assertMsg] : List String).length = ([] : List String).length :=
      congrArg List.length hc
    simp at hlen

/-- C10: every `Range` the driver constructs is block-aligned (`offset`
divisible by `kSize`): the bootstrap range at offset 0 and every chunk range
at `initial_end + chunk·kChunkSize`; and under this alignment `Sieve` marks
exactly the bits whose *absolute* value is a tracked multiple of `p`, i.e. the
relative residue used by the marking loop coincides with the absolute residue. -/
theorem C10_driver_alignment (maximum : Int) :
    (Range.new 0 (initial_length maximum)).offset % Indexer.kSize = 0 ∧
    (∀ c : Nat, (initial_end maximum + c * kChunkSize) % Indexer.kSize = 0) ∧
    (∀ (r : Range) (p : Nat), 0 < p → r.offset % Indexer.kSize = 0 →
      ∀ j i, i < Indexer.kBits →
        ((r.Sieve p).bits j i = true ↔
          r.bits j i = true ∨
            (j < r.size ∧
              p ∣ (r.offset + (j * Indexer.kSize + Indexer.atIndex i)) ∧
              Indexer.tracked
                ((r.offset + (j * Indexer.kSize + Indexer.atIndex i)) % Indexer.kSize)
                = true))) := by
  refine ⟨by rw [new_offset]; exact Nat.zero_mod _, ?_, ?_⟩
  · intro c
    obtain ⟨a, ha⟩ := Nat.dvd_of_mod_eq_zero (initial_end_align maximum)
    obtain ⟨b, hb⟩ := kSize_dvd_kChunkSize
    rw [ha, hb, show Indexer.kSize * a + c * (Indexer.kSize * b)
        = Indexer.kSize * (a + c * b) from by ring]
    exact Nat.mul_mod_right _ _
  · intro r p hp hal j i hi
    rw [Sieve_bits_iff r p hp j i hi]
    have htr : Indexer.tracked
        ((r.offset + (j * Indexer.kSize + Indexer.atIndex i)) % Indexer.kSize) = true := by
      rw [tracked_mod, tracked_align hal]
      exact @tracked_valOf (j, i) hi
    tauto
